import Mathlib

/-!
The image store gateway of grpc_server.

A shallow embedding of `internal/handlers/images_service.go` and the
properties of its three handlers, `UploadImage`, `GetImageList` and
`GetImage`.

* Go strings are lists of characters (`Str`), byte slices lists of bytes.
* The calls the handlers make into the Go standard library
  (`filepath.Join`, `os.WriteFile`, `os.ReadFile`, `os.ReadDir`, `os.Open`,
  `os.IsNotExist`) and into `times` are embedded as functions over a model
  of a Linux file system: a finite map from locations (the names from the
  root down) to nodes, with the owner's read, write and search permission
  and the birth and change times. Path lookup checks the search permission
  of every directory it looks a name up in, the length of every name
  (`NAME_MAX`) and of the whole path (`PATH_MAX`). The server does not run as
  the superuser. Symbolic links are left out.
* The two `semaphore.Weighted` gates are counters with a capacity.
* A handler is a function from the world (the server with its gates, the
  file system, the trace of effects) and the caller's context to an outcome.
  The calls of `log.Printf` are left out.
* Concurrent requests are a step relation: each request takes the three
  steps of its handler (acquisition, body, deferred release), interleaved
  with the steps of the others by a schedule.
-/

namespace GrpcServer

/-! ## Strings and paths -/

/-- A Go string. -/
abbrev Str := List Char

/-- The components of a path: `strings.Split(path, "/")`. -/
def splitSlash : Str → List Str
  | [] => [[]]
  | c :: cs =>
    if c = '/' then [] :: splitSlash cs
    else
      match splitSlash cs with
      | [] => [[c]]
      | x :: xs => (c :: x) :: xs

/-- The components joined with `/`: `strings.Join(comps, "/")`. -/
def joinSlash : List Str → Str
  | [] => []
  | [x] => x
  | x :: y :: rest => x ++ '/' :: joinSlash (y :: rest)

/-- The name `.`. -/
def dot : Str := ['.']

/-- The name `..`. -/
def dotdot : Str := ['.', '.']

/-- One path element processed by `filepath.Clean`. The stack holds the
elements kept so far, the last one first. An empty element and `.` are
dropped; `..` removes the element before it when that is a real name, is
dropped at the top of a rooted path, and is kept otherwise; a real name is
kept. -/
def cleanStep (rooted : Bool) (st : List Str) (c : Str) : List Str :=
  if c = [] ∨ c = dot then st
  else if c = dotdot then
    match st with
    | top :: rest =>
      if top = dotdot then (if rooted then st else c :: st) else rest
    | [] => if rooted then [] else [c]
  else c :: st

/-- Whether the path starts with a separator. -/
def isRooted (path : Str) : Bool :=
  match path with
  | c :: _ => c = '/'
  | [] => false

/-- The stack of elements `filepath.Clean` keeps for a path. -/
def cleanStack (path : Str) : List Str :=
  (splitSlash path).foldl (cleanStep (isRooted path)) []

/-- The path `filepath.Clean` writes out for a stack of kept elements: the
elements in order with single separators, after the leading separator of a
rooted path; `.` for an empty result. -/
def renderClean (rooted : Bool) (st : List Str) : Str :=
  if rooted then '/' :: joinSlash st.reverse
  else if st = [] then dot
  else joinSlash st.reverse

/-- Go's `filepath.Clean` on Unix: the shortest path name equivalent to `path`
by purely lexical processing. -/
def Clean (path : Str) : Str :=
  if path = [] then dot
  else renderClean (isRooted path) (cleanStack path)

/-- Go's `filepath.Join(dir, name)` on Unix: the elements from the first
non-empty one on are joined with a separator and the result is cleaned. -/
def Join (dir name : Str) : Str :=
  if dir ≠ [] then Clean (dir ++ '/' :: name)
  else if name ≠ [] then Clean name
  else []

/-- The result of `fmt.Sprintf("%s.%s", a, b)`. -/
def sprintfDot (a b : Str) : Str := a ++ '.' :: b

/-- The result of `fmt.Sprintf("%s/%s", a, b)`. -/
def sprintfSlash (a b : Str) : Str := a ++ '/' :: b

/-! ## Time stamps -/

/-- A wall-clock time, broken down as `time.Time.Format` prints it. -/
structure Time where
  year : Nat
  month : Nat
  day : Nat
  hour : Nat
  minute : Nat
  second : Nat
  deriving DecidableEq, Repr

/-- A number in decimal, zero-padded on the left to `w` digits. -/
def padNat (w n : Nat) : Str :=
  let d := Nat.toDigits 10 n
  List.replicate (w - d.length) '0' ++ d

/-- The layout `time.DateTime`, "2006-01-02 15:04:05". -/
def Time.Format (t : Time) : Str :=
  padNat 4 t.year ++ '-' :: padNat 2 t.month ++ '-' :: padNat 2 t.day ++ ' ' ::
    padNat 2 t.hour ++ ':' :: padNat 2 t.minute ++ ':' :: padNat 2 t.second

/-! ## File system -/

/-- A byte. -/
abbrev Byte := Fin 256

/-- The error numbers the file operations report. -/
inductive Errno
  | ENOENT
  | ENOTDIR
  | EISDIR
  | EACCES
  | EINVAL
  | ENAMETOOLONG
  deriving DecidableEq, Repr

/-- A node of the file system: a directory or a regular file, with the
owner's read, write and execute permission, the birth time when the file
system records one, and the change time. For a directory `readable` permits
listing, `writable` permits creating entries and `searchable` (the execute
bit) permits looking a name up in it; `data` is unused. -/
structure Node where
  isDir : Bool
  data : List Byte
  readable : Bool
  writable : Bool
  searchable : Bool
  btime : Option Time
  ctime : Time
  deriving DecidableEq, Repr

/-- Equality of results of fallible operations is decidable. -/
instance instDecidableEqExcept {ε α : Type} [DecidableEq ε] [DecidableEq α] :
    DecidableEq (Except ε α) := fun a b =>
  match a, b with
  | .ok x, .ok y =>
    if h : x = y then isTrue (by rw [h]) else isFalse (fun h2 => h (by injection h2))
  | .error x, .error y =>
    if h : x = y then isTrue (by rw [h]) else isFalse (fun h2 => h (by injection h2))
  | .ok _, .error _ => isFalse (fun h2 => by cases h2)
  | .error _, .ok _ => isFalse (fun h2 => by cases h2)

/-- A location: the names from the root down. -/
abbrev Loc := List Str

/-- The file system and the process's view of it: the nodes by location (the
root directory is the node at `[]`), the working directory, the clock, and
whether new files get a birth time. -/
structure FS where
  nodes : List (Loc × Node)
  cwd : Loc
  now : Time
  birth : Bool
  deriving DecidableEq, Repr

/-- The first node stored under a location. -/
def assoc (k : Loc) : List (Loc × Node) → Option Node
  | [] => none
  | (k1, v) :: rest => if k1 = k then some v else assoc k rest

/-- The node at a location. -/
def FS.lookup (fs : FS) (k : Loc) : Option Node := assoc k fs.nodes

/-- The file system with the node at `k` created or replaced. -/
def FS.insert (fs : FS) (k : Loc) (v : Node) : FS :=
  { fs with nodes := (k, v) :: fs.nodes.filter (fun e => decide (e.1 ≠ k)) }

/-- The number of bytes of a character in a Go string (its UTF-8 encoding). -/
def utf8Len (c : Char) : Nat :=
  if c.toNat < 0x80 then 1
  else if c.toNat < 0x800 then 2
  else if c.toNat < 0x10000 then 3
  else 4

/-- The length of a Go string in bytes: `len(s)`. -/
def byteLen : Str → Nat
  | [] => 0
  | c :: cs => utf8Len c + byteLen cs

/-- The longest file name, in bytes, that the file system of the image
directory stores: 255 on the common Linux file systems. -/
def NAME_MAX : Nat := 255

/-- The size of the buffer the kernel copies a path into: a path, with the
NUL byte that ends it, must fit. -/
def PATH_MAX : Nat := 4096

/-- One step of path lookup from the node at `pos`: the current node must be
a directory; an empty element (a repeated or trailing separator) stays
there. Any other element is looked up, which needs search permission for the
directory: `.` stays, `..` goes to the parent (the root is its own parent),
a name of at most `NAME_MAX` bytes goes to the entry of that name. -/
def walkStep (fs : FS) (pos : Loc) (c : Str) : Except Errno Loc :=
  match fs.lookup pos with
  | none => .error .ENOENT
  | some nd =>
    if nd.isDir = false then .error .ENOTDIR
    else if c = [] then .ok pos
    else if nd.searchable = false then .error .EACCES
    else if c = dot then .ok pos
    else if c = dotdot then .ok pos.dropLast
    else if NAME_MAX < byteLen c then .error .ENAMETOOLONG
    else
      match fs.lookup (pos ++ [c]) with
      | none => .error .ENOENT
      | some _ => .ok (pos ++ [c])

/-- Path lookup over a list of elements. -/
def walk (fs : FS) : Loc → List Str → Except Errno Loc
  | pos, [] => .ok pos
  | pos, c :: cs =>
    match walkStep fs pos c with
    | .ok p => walk fs p cs
    | .error e => .error e

/-- Where lookup of a path starts: the root for a rooted path, else the
working directory. -/
def FS.start (fs : FS) (path : Str) : Loc :=
  if isRooted path then [] else fs.cwd

/-- The NUL character, which no path may hold. -/
def nul : Char := Char.ofNat 0

/-- The location a path names, as the kernel resolves it: the empty path
names nothing, a path with a NUL byte is invalid (Go refuses it before the
system call), a path of `PATH_MAX` bytes or more is too long, and every
element is looked up in turn. -/
def FS.resolve (fs : FS) (path : Str) : Except Errno Loc :=
  if path = [] then .error .ENOENT
  else if nul ∈ path then .error .EINVAL
  else if PATH_MAX ≤ byteLen path then .error .ENAMETOOLONG
  else walk fs (fs.start path) (splitSlash path)

/-- An error of a file operation, as `os.PathError` prints it, or
`os.ErrInvalid` for an operation on a nil file. -/
inductive OsError
  | path (op : Str) (name : Str) (err : Errno)
  | invalid
  deriving DecidableEq, Repr

/-- The text of an error number. -/
def Errno.Error : Errno → Str
  | .ENOENT => "no such file or directory".toList
  | .ENOTDIR => "not a directory".toList
  | .EISDIR => "is a directory".toList
  | .EACCES => "permission denied".toList
  | .EINVAL => "invalid argument".toList
  | .ENAMETOOLONG => "file name too long".toList

/-- The text of an error. -/
def OsError.Error : OsError → Str
  | .path op name err => op ++ ' ' :: name ++ ':' :: ' ' :: err.Error
  | .invalid => "invalid argument".toList

/-- Go's `os.IsNotExist`: true exactly for ENOENT. -/
def os_IsNotExist : OsError → Bool
  | .path _ _ .ENOENT => true
  | _ => false

/-- Go's `os.ReadFile`: the bytes of the regular file the path names. -/
def os_ReadFile (fs : FS) (name : Str) : Except OsError (List Byte) :=
  match fs.resolve name with
  | .error e => .error (.path "open".toList name e)
  | .ok loc =>
    match fs.lookup loc with
    | none => .error (.path "open".toList name .ENOENT)
    | some nd =>
      if nd.readable = false then .error (.path "open".toList name .EACCES)
      else if nd.isDir then .error (.path "read".toList name .EISDIR)
      else .ok nd.data

/-- The node a successful write of `data` creates, with mode 0644. -/
def FS.newFile (fs : FS) (data : List Byte) : Node :=
  { isDir := false, data := data, readable := true, writable := true, searchable := false,
    btime := if fs.birth then some fs.now else none, ctime := fs.now }

/-- The last step of a write under the path `name`: in the directory at
`parent`, which must permit search, the element `last` is created as a new
file, or truncated and rewritten when it is a regular file the owner may
write. -/
def writeEntry (fs : FS) (name : Str) (parent : Loc) (last : Str) (data : List Byte) :
    Except OsError FS :=
  match fs.lookup parent with
  | none => .error (.path "open".toList name .ENOENT)
  | some pd =>
    if pd.isDir = false then .error (.path "open".toList name .ENOTDIR)
    else if last = [] then .error (.path "open".toList name .EISDIR)
    else if pd.searchable = false then .error (.path "open".toList name .EACCES)
    else if last = dot ∨ last = dotdot then .error (.path "open".toList name .EISDIR)
    else if NAME_MAX < byteLen last then .error (.path "open".toList name .ENAMETOOLONG)
    else
      match fs.lookup (parent ++ [last]) with
      | none =>
        if pd.writable = false then .error (.path "open".toList name .EACCES)
        else .ok (fs.insert (parent ++ [last]) (fs.newFile data))
      | some nd =>
        if nd.isDir then .error (.path "open".toList name .EISDIR)
        else if nd.writable = false then .error (.path "open".toList name .EACCES)
        else .ok (fs.insert (parent ++ [last]) { nd with data := data, ctime := fs.now })

/-- Go's `os.WriteFile(name, data, 0644)`: the directory of the last element
is looked up; a missing file is created there, an existing regular file is
truncated and rewritten. -/
def os_WriteFile (fs : FS) (name : Str) (data : List Byte) : Except OsError FS :=
  if name = [] then .error (.path "open".toList name .ENOENT)
  else if nul ∈ name then .error (.path "open".toList name .EINVAL)
  else if PATH_MAX ≤ byteLen name then .error (.path "open".toList name .ENAMETOOLONG)
  else
    match walk fs (fs.start name) (splitSlash name).dropLast with
    | .error e => .error (.path "open".toList name e)
    | .ok parent => writeEntry fs name parent ((splitSlash name).getLastD []) data

/-- An entry of a directory listing (`os.DirEntry`). -/
structure DirEntry where
  Name : Str
  IsDir : Bool
  deriving DecidableEq, Repr

/-- Byte-wise order of names, as Go compares strings. -/
def strLE : Str → Str → Bool
  | [], _ => true
  | _ :: _, [] => false
  | a :: as, b :: bs =>
    if a.toNat < b.toNat then true
    else if b.toNat < a.toNat then false
    else strLE as bs

/-- The names of the entries directly under `d`. -/
def FS.childNames (fs : FS) (d : Loc) : List Str :=
  fs.nodes.filterMap (fun e => if e.1 ≠ [] ∧ e.1.dropLast = d then e.1.getLast? else none)

/-- The listing of the directory at `d`, sorted by name. -/
def FS.entries (fs : FS) (d : Loc) : List DirEntry :=
  ((fs.childNames d).insertionSort (fun a b => strLE a b = true)).map
    (fun nm => { Name := nm, IsDir := match fs.lookup (d ++ [nm]) with
                                    | some nd => nd.isDir
                                    | none => false })

/-- Go's `os.ReadDir`: all entries of the directory, sorted by file name. -/
def os_ReadDir (fs : FS) (name : Str) : Except OsError (List DirEntry) :=
  match fs.resolve name with
  | .error e => .error (.path "open".toList name e)
  | .ok loc =>
    match fs.lookup loc with
    | none => .error (.path "open".toList name .ENOENT)
    | some nd =>
      if nd.isDir = false then .error (.path "readdirent".toList name .ENOTDIR)
      else if nd.readable = false then .error (.path "open".toList name .EACCES)
      else .ok (fs.entries loc)

/-- Go's `os.Open`: the location of the opened file, `none` standing for the
nil file the call returns with an error. -/
def os_Open (fs : FS) (name : Str) : Option Loc :=
  match fs.resolve name with
  | .error _ => none
  | .ok loc =>
    match fs.lookup loc with
    | none => none
    | some nd => if nd.readable then some loc else none

/-- The times `times.StatFile` reports (`times.Timespec`). -/
structure Timespec where
  birthTime : Option Time
  changeTime : Time
  deriving DecidableEq, Repr

/-- The library call `times.StatFile`: an error for the nil file, else the
times of the open file. -/
def times_StatFile (fs : FS) (file : Option Loc) : Except OsError Timespec :=
  match file with
  | none => .error .invalid
  | some loc =>
    match fs.lookup loc with
    | none => .error (.path "stat".toList [] .ENOENT)
    | some nd => .ok { birthTime := nd.btime, changeTime := nd.ctime }

/-! ## Admission gates -/

/-- The error of a context that is done: `context.Canceled` or
`context.DeadlineExceeded`. -/
inductive CtxErr
  | Canceled
  | DeadlineExceeded
  deriving DecidableEq, Repr

/-- The caller's cancellation and deadline signal, as one acquisition sees
it: never fired, fired before the call, or firing while the call waits. -/
inductive Context
  | background
  | done (e : CtxErr)
  | doneLater (e : CtxErr)
  deriving DecidableEq, Repr

/-- A weighted semaphore: its capacity and the units in use. -/
structure Weighted where
  size : Nat
  cur : Nat
  deriving DecidableEq, Repr

/-- Modelled from the spec: the weighted counting semaphore
(`semaphore.NewWeighted` of golang.org/x/sync) is a dependency, not part of
the repository. A new semaphore has the given capacity and nothing in use. -/
def NewWeighted (n : Nat) : Weighted := { size := n, cur := 0 }

/-- What a call of `Acquire` does when no other request runs: it takes the
units, fails with the context's error, or waits for ever. -/
inductive Acquired
  | ok (s : Weighted)
  | err (e : CtxErr)
  | blocked
  deriving DecidableEq, Repr

/-- Modelled from the spec: `Acquire` of the weighted semaphore, a dependency
that is not part of the repository (spec 4.1). It blocks until `n` units are
free; it is interrupted by the context, in which case it fails with the
context's error and leaves the semaphore unchanged. For a context that is
done before the call, on which the spec is silent, the library's behaviour
is taken: the call fails even when units are free. -/
def Weighted.Acquire (s : Weighted) (ctx : Context) (n : Nat) : Acquired :=
  match ctx with
  | .done e => .err e
  | .doneLater e => if s.cur + n ≤ s.size then .ok { s with cur := s.cur + n } else .err e
  | .background => if s.cur + n ≤ s.size then .ok { s with cur := s.cur + n } else .blocked

/-- Modelled from the spec: `Release` of the weighted semaphore, a dependency
that is not part of the repository (spec 4.1). It gives `n` units back;
releasing more than is held panics (`none`). -/
def Weighted.Release (s : Weighted) (n : Nat) : Option Weighted :=
  if s.cur < n then none else some { s with cur := s.cur - n }

/-! ## The server -/

/-- The two gates. -/
inductive Gate
  | getUploadImage
  | getImageList
  deriving DecidableEq, Repr

/-- The server (`ImageServiceServer`). -/
structure ImageServiceServer where
  getUploadImageSemaphore : Weighted
  getImageListSemaphore : Weighted
  imageDir : Str
  imageExt : Str
  deriving DecidableEq, Repr

/-- The constructor `NewImageServiceServer`. The two limits are `int64` in
the source and natural numbers here. -/
def NewImageServiceServer (maxGetUploadImageConnections maxGetImageListConnections : Nat)
    (imageDir imageExt : Str) : ImageServiceServer :=
  { getUploadImageSemaphore := NewWeighted maxGetUploadImageConnections,
    getImageListSemaphore := NewWeighted maxGetImageListConnections,
    imageDir := imageDir,
    imageExt := imageExt }

/-- An effect a handler has on the gates or on storage. -/
inductive Event
  | acquire (g : Gate)
  | release (g : Gate)
  | writeFile (name : Str)
  | readFile (name : Str)
  | readDir (name : Str)
  | openFile (name : Str)
  deriving DecidableEq, Repr

/-- The world a handler runs in: the server with its gates, the file system,
and the effects performed so far, the oldest first. -/
structure World where
  srv : ImageServiceServer
  fs : FS
  trace : List Event
  deriving DecidableEq, Repr

/-- The status codes the handlers use. -/
inductive Code
  | NotFound
  | Internal
  deriving DecidableEq, Repr

/-- The error a handler returns: the context's error of a failed
acquisition, passed on as it is, or a status with a code and a message. -/
inductive RpcError
  | context (e : CtxErr)
  | status (c : Code) (msg : Str)
  deriving DecidableEq, Repr

/-- The result of a handler: a response or an error. -/
inductive Result (α : Type)
  | ok (a : α)
  | error (e : RpcError)
  deriving DecidableEq, Repr

/-- What a handler call does: it returns, leaving a world; it waits at its
gate for ever; or it panics. -/
inductive Outcome (α : Type)
  | returned (w : World) (r : Result α)
  | blocked
  | panicked
  deriving DecidableEq, Repr

/-- The request of `UploadImage`. -/
structure UploadImageRequest where
  ImageName : Str
  ImageData : List Byte
  deriving DecidableEq, Repr

/-- The response of `UploadImage`. -/
structure UploadImageResponse where
  ImageName : Str
  deriving DecidableEq, Repr

/-- The request of `GetImage`. -/
structure GetImageRequest where
  ImageName : Str
  deriving DecidableEq, Repr

/-- The response of `GetImage`. -/
structure GetImageResponse where
  ImageData : List Byte
  deriving DecidableEq, Repr

/-- One listed image. -/
structure ImageInfo where
  ImageName : Str
  CreationDate : Str
  ModificationDate : Str
  deriving DecidableEq, Repr

/-- The response of `GetImageList`. -/
structure GetImageListResponse where
  ImageInfo : List ImageInfo
  deriving DecidableEq, Repr

/-- The world with one more effect recorded. -/
def World.emit (w : World) (e : Event) : World := { w with trace := w.trace ++ [e] }

/-- The gate a handler class uses. -/
def World.gate (w : World) : Gate → Weighted
  | .getUploadImage => w.srv.getUploadImageSemaphore
  | .getImageList => w.srv.getImageListSemaphore

/-- The world with a gate's semaphore replaced. -/
def World.setGate (w : World) (g : Gate) (s : Weighted) : World :=
  match g with
  | .getUploadImage => { w with srv := { w.srv with getUploadImageSemaphore := s } }
  | .getImageList => { w with srv := { w.srv with getImageListSemaphore := s } }

/-- The method `getFileName`: the full file name, name and extension. -/
def getFileName (s : ImageServiceServer) (imageName : Str) : Str :=
  sprintfDot imageName s.imageExt

/-- The method `saveImageToDisk`: the file is written under the joined path
and the full file name is returned. -/
def saveImageToDisk (w : World) (imageName : Str) (imageData : List Byte) :
    World × Except OsError Str :=
  let fullFileName := getFileName w.srv imageName
  let filePath := Join w.srv.imageDir fullFileName
  let w1 := w.emit (.writeFile filePath)
  match os_WriteFile w.fs filePath imageData with
  | .error err => (w1, .error err)
  | .ok fs1 => ({ w1 with fs := fs1 }, .ok fullFileName)

/-- The method `getCreationModificationDate`: the creation and modification
dates of a file and the error; the result of opening the file is passed to
`times.StatFile` unchecked. -/
def getCreationModificationDate (w : World) (fileName : Str) :
    World × Str × Str × Option OsError :=
  let filePath := Join w.srv.imageDir fileName
  let w1 := w.emit (.openFile filePath)
  let fileOpen := os_Open w.fs filePath
  match times_StatFile w.fs fileOpen with
  | .error err => (w1, [], [], some err)
  | .ok timeStat =>
    let creationDate : Str :=
      match timeStat.birthTime with
      | some t => t.Format
      | none => []
    let modificationDate := timeStat.changeTime.Format
    (w1, creationDate, modificationDate, none)

/-- The loop of `getImagesInfo` over the directory entries. -/
def getImagesInfoLoop : World → List DirEntry → List ImageInfo → World × List ImageInfo
  | w, [], imageInfoList => (w, imageInfoList)
  | w, file :: rest, imageInfoList =>
    if file.IsDir then getImagesInfoLoop w rest imageInfoList
    else
      match getCreationModificationDate w file.Name with
      | (w1, creationDate, modificationDate, _) =>
        getImagesInfoLoop w1 rest
          (imageInfoList ++ [{ ImageName := file.Name,
                               CreationDate := creationDate,
                               ModificationDate := modificationDate }])

/-- The method `getImagesInfo`: information about the saved images. -/
def getImagesInfo (w : World) : World × Except OsError (List ImageInfo) :=
  let w1 := w.emit (.readDir w.srv.imageDir)
  match os_ReadDir w.fs w.srv.imageDir with
  | .error err => (w1, .error err)
  | .ok files =>
    match getImagesInfoLoop w1 files [] with
    | (w2, imageInfoList) => (w2, .ok imageInfoList)

/-- The method `readImage`: the image data. -/
def readImage (w : World) (imageName : Str) : World × Except OsError (List Byte) :=
  let name := sprintfSlash w.srv.imageDir imageName
  let w1 := w.emit (.readFile name)
  match os_ReadFile w.fs name with
  | .error err => (w1, .error err)
  | .ok imageData => (w1, .ok imageData)

/-- A handler's body run between the acquisition of a unit of gate `g` and
its deferred release. -/
def guarded {α : Type} (g : Gate) (w : World) (ctx : Context)
    (body : World → World × Result α) : Outcome α :=
  match (w.gate g).Acquire ctx 1 with
  | .blocked => .blocked
  | .err e => .returned w (.error (.context e))
  | .ok sem =>
    match body ((w.setGate g sem).emit (.acquire g)) with
    | (w2, r) =>
      match (w2.gate g).Release 1 with
      | none => .panicked
      | some sem2 => .returned ((w2.setGate g sem2).emit (.release g)) r

/-- The body of `UploadImage` after the acquisition. -/
def UploadImageBody (req : UploadImageRequest) (w : World) :
    World × Result UploadImageResponse :=
  match saveImageToDisk w req.ImageName req.ImageData with
  | (w1, .error err) =>
    (w1, .error (.status .Internal ("Error saving image: ".toList ++ err.Error)))
  | (w1, .ok fullFileName) => (w1, .ok { ImageName := fullFileName })

/-- The handler `UploadImage`: saves the image in the image directory. -/
def UploadImage (w : World) (ctx : Context) (req : UploadImageRequest) :
    Outcome UploadImageResponse :=
  guarded .getUploadImage w ctx (UploadImageBody req)

/-- The body of `GetImageList` after the acquisition. -/
def GetImageListBody (w : World) : World × Result GetImageListResponse :=
  match getImagesInfo w with
  | (w1, .error err) =>
    (w1, .error (.status .Internal ("Error reading image list: ".toList ++ err.Error)))
  | (w1, .ok imagesInfo) => (w1, .ok { ImageInfo := imagesInfo })

/-- The handler `GetImageList`: information about the saved images. -/
def GetImageList (w : World) (ctx : Context) : Outcome GetImageListResponse :=
  guarded .getImageList w ctx GetImageListBody

/-- The body of `GetImage` after the acquisition. -/
def GetImageBody (req : GetImageRequest) (w : World) : World × Result GetImageResponse :=
  match readImage w req.ImageName with
  | (w1, .error err) =>
    if os_IsNotExist err then
      (w1, .error (.status .NotFound
        ("Image ".toList ++ req.ImageName ++ " not found".toList)))
    else
      (w1, .error (.status .Internal ("Error reading image: ".toList ++ err.Error)))
  | (w1, .ok imageData) => (w1, .ok { ImageData := imageData })

/-- The handler `GetImage`: the data of a single image. -/
def GetImage (w : World) (ctx : Context) (req : GetImageRequest) :
    Outcome GetImageResponse :=
  guarded .getUploadImage w ctx (GetImageBody req)

/-! ## Concurrent requests -/

/-- A request to one of the three handlers. -/
inductive Request
  | upload (req : UploadImageRequest)
  | list
  | get (req : GetImageRequest)
  deriving DecidableEq, Repr

/-- The result of a request. -/
inductive Reply
  | upload (r : Result UploadImageResponse)
  | list (r : Result GetImageListResponse)
  | get (r : Result GetImageResponse)
  deriving DecidableEq, Repr

/-- Where a request's handler stands: before its `Acquire`, holding its unit
with the storage operation still to do, holding it with the result in hand
and the deferred `Release` still to run, returned, or panicked. -/
inductive Phase
  | waiting
  | holding
  | finishing (r : Reply)
  | returned (r : Reply)
  | panicked
  deriving DecidableEq, Repr

/-- A request in flight: the request, its context and its phase. -/
structure Task where
  req : Request
  ctx : Context
  phase : Phase
  deriving DecidableEq, Repr

/-- The gate a request's handler acquires. -/
def Request.gate : Request → Gate
  | .upload _ => .getUploadImage
  | .list => .getImageList
  | .get _ => .getUploadImage

/-- The error a request's handler returns for a failed acquisition. -/
def Request.refused (r : Request) (e : CtxErr) : Reply :=
  match r with
  | .upload _ => .upload (.error (.context e))
  | .list => .list (.error (.context e))
  | .get _ => .get (.error (.context e))

/-- The body of a request's handler, run while it holds its unit. -/
def Request.body (r : Request) (w : World) : World × Reply :=
  match r with
  | .upload req => ((UploadImageBody req w).1, .upload (UploadImageBody req w).2)
  | .list => ((GetImageListBody w).1, .list (GetImageListBody w).2)
  | .get req => ((GetImageBody req w).1, .get (GetImageBody req w).2)

/-- The server with the requests in flight. -/
structure Sys where
  w : World
  tasks : List Task
  deriving DecidableEq, Repr

/-- What the scheduler or the environment does next: a new request arrives,
the context of a request is cancelled or runs out, or the handler of a
request takes its next step. -/
inductive Action
  | arrive (req : Request) (ctx : Context)
  | cancel (i : Nat) (e : CtxErr)
  | run (i : Nat)
  deriving DecidableEq, Repr

/-- Whether a request holds a unit of gate `g`. -/
def Task.holds (g : Gate) (t : Task) : Bool :=
  decide (t.req.gate = g) &&
    (match t.phase with
     | .holding => true
     | .finishing _ => true
     | _ => false)

/-- The number of requests that have acquired a unit of gate `g` and not yet
released it. -/
def Sys.holders (s : Sys) (g : Gate) : Nat := s.tasks.countP (Task.holds g)

/-- The next step of the handler of task `t`: the acquisition (which is not
enabled while the gate is full and the context is live), the body, or the
deferred release. Which of several waiting requests acquires first is left
to the schedule. -/
def stepTask (w : World) (t : Task) : Option (World × Task) :=
  match t.phase with
  | .waiting =>
    match (w.gate t.req.gate).Acquire t.ctx 1 with
    | .blocked => none
    | .err e => some (w, { t with phase := .returned (t.req.refused e) })
    | .ok sem =>
      some ((w.setGate t.req.gate sem).emit (.acquire t.req.gate), { t with phase := .holding })
  | .holding => some ((t.req.body w).1, { t with phase := .finishing (t.req.body w).2 })
  | .finishing r =>
    match (w.gate t.req.gate).Release 1 with
    | none => some (w, { t with phase := .panicked })
    | some sem =>
      some ((w.setGate t.req.gate sem).emit (.release t.req.gate), { t with phase := .returned r })
  | .returned _ => none
  | .panicked => none

/-- One step of the system; `none` when the action is not enabled. -/
def step (s : Sys) : Action → Option Sys
  | .arrive req ctx => some { s with tasks := s.tasks ++ [{ req := req, ctx := ctx, phase := .waiting }] }
  | .cancel i e =>
    match s.tasks[i]? with
    | none => none
    | some t =>
      match t.ctx with
      | .done _ => none
      | _ => some { s with tasks := s.tasks.set i { t with ctx := .done e } }
  | .run i =>
    match s.tasks[i]? with
    | none => none
    | some t =>
      match stepTask s.w t with
      | none => none
      | some (w1, t1) => some { w := w1, tasks := s.tasks.set i t1 }

/-- The system after a schedule; `none` when an action of it is not enabled. -/
def runSchedule : Sys → List Action → Option Sys
  | s, [] => some s
  | s, a :: rest =>
    match step s a with
    | none => none
    | some s1 => runSchedule s1 rest

/-- The system at start: a new server over a file system, no request yet. -/
def Sys.init (maxGetUploadImageConnections maxGetImageListConnections : Nat)
    (imageDir imageExt : Str) (fs : FS) : Sys :=
  { w := { srv := NewImageServiceServer maxGetUploadImageConnections
             maxGetImageListConnections imageDir imageExt,
           fs := fs, trace := [] },
    tasks := [] }

/-! ## Notions the statements use -/

/-- Whether an effect is on a gate. -/
def Event.isGate : Event → Bool
  | .acquire _ => true
  | .release _ => true
  | _ => false

/-- A body that leaves the server alone and only adds storage effects to
the trace. -/
def BodyOK {α : Type} (body : World → World × Result α) : Prop :=
  ∀ w, (body w).1.srv = w.srv ∧
    ∃ mid, (body w).1.trace = w.trace ++ mid ∧ ∀ e ∈ mid, e.isGate = false

/-- The listed image of a directory entry. -/
def infoOf (w : World) (file : DirEntry) : ImageInfo :=
  { ImageName := file.Name,
    CreationDate := (getCreationModificationDate w file.Name).2.1,
    ModificationDate := (getCreationModificationDate w file.Name).2.2.1 }

/-- The outcome with a gate's semaphore replaced in the world it leaves. -/
def Outcome.withGate {α : Type} (g : Gate) (x : Weighted) : Outcome α → Outcome α
  | .returned w r => .returned (w.setGate g x) r
  | .blocked => .blocked
  | .panicked => .panicked

/-- The world a handler call leaves, when it returns. -/
def Outcome.world? {α : Type} : Outcome α → Option World
  | .returned w _ => some w
  | _ => none

/-- The result of a handler call, when it returns. -/
def Outcome.result? {α : Type} : Outcome α → Option (Result α)
  | .returned _ r => some r
  | _ => none

/-- The stacks `filepath.Clean` builds: no empty element and no `.`, and no
`..` in the stack of a rooted path. -/
def StackOK (rooted : Bool) (st : List Str) : Prop :=
  (∀ c ∈ st, c ≠ [] ∧ c ≠ dot) ∧ (rooted = true → dotdot ∉ st)

/-- A plain file name: not empty, without a separator, and neither `.` nor
`..`. -/
def PlainName (n : Str) : Prop :=
  n ≠ [] ∧ '/' ∉ n ∧ n ≠ dot ∧ n ≠ dotdot

/-- The invariant of the gates under concurrent requests: the capacities are
the configured limits, and the units in use at each gate are as many as the
requests that hold one, and no more than the capacity. -/
def GateInv (n m : Nat) (s : Sys) : Prop :=
  s.w.srv.getUploadImageSemaphore.size = n ∧ s.w.srv.getImageListSemaphore.size = m ∧
    ∀ g, (s.w.gate g).cur = s.holders g ∧ (s.w.gate g).cur ≤ (s.w.gate g).size

/-! ## Example stores and schedules -/

/-- The time of the examples. -/
def exTime : Time := ⟨2024, 3, 7, 9, 5, 0⟩

/-- A directory the server may list, write in and search. -/
def exDir : Node :=
  { isDir := true, data := [], readable := true, writable := true, searchable := true,
    btime := none, ctime := exTime }

/-- A regular file with the given content and read permission. -/
def exFile (data : List Byte) (readable : Bool) : Node :=
  { isDir := false, data := data, readable := readable, writable := true, searchable := false,
    btime := some exTime, ctime := exTime }

/-- A store with an empty image directory `media` under the working
directory, which is the root. -/
def exFS : FS :=
  { nodes := [([], exDir), (["media".toList], exDir)], cwd := [], now := exTime, birth := true }

/-- The server of `main.go` (limits 10 and 100, directory `media/`,
extension `jpg`) over the empty store. -/
def exWorld : World :=
  { srv := NewImageServiceServer 10 100 "media/".toList "jpg".toList, fs := exFS, trace := [] }

/-- A store whose image directory holds the image `cat.jpg`, a file
`locked.png` the server may not read, and a directory `sub`. -/
def exFS2 : FS :=
  { nodes := [([], exDir), (["media".toList], exDir),
              (["media".toList, "cat.jpg".toList], exFile [0xFF, 0xD8] true),
              (["media".toList, "locked.png".toList], exFile [1, 2, 3] false),
              (["media".toList, "sub".toList], exDir)],
    cwd := [], now := exTime, birth := true }

/-- The server of `main.go` over the store `exFS2`. -/
def exWorld2 : World :=
  { srv := NewImageServiceServer 10 100 "media/".toList "jpg".toList, fs := exFS2, trace := [] }

/-- The world after the upload of bytes FF D8 under the identifier `cat` on
the empty store. -/
def exAfterCat : World :=
  ((UploadImage exWorld .background ⟨"cat".toList, [0xFF, 0xD8]⟩).world?).getD exWorld

/-- The world after the upload of bytes FF D8 under the identifier `a/../b`
on the empty store. -/
def exAfterDotDot : World :=
  ((UploadImage exWorld .background ⟨"a/../b".toList, [0xFF, 0xD8]⟩).world?).getD exWorld

/-- The world after the upload of bytes FF D8 under the identifier `sub/cat`
on the store `exFS2`, whose image directory has a directory `sub`. -/
def exAfterSub : World :=
  ((UploadImage exWorld2 .background ⟨"sub/cat".toList, [0xFF, 0xD8]⟩).world?).getD exWorld2

/-- Two uploads that arrive together at a server with upload/read limit 1,
the first of which has acquired its unit. -/
def exTwoUploads : List Action :=
  [.arrive (.upload ⟨"a".toList, [1]⟩) .background,
   .arrive (.upload ⟨"b".toList, [2]⟩) .background,
   .run 0]

/-- The state after `exTwoUploads` at a server with upload/read limit 1 over
the empty store. -/
def exTwoUploadsState : Sys :=
  (runSchedule (Sys.init 1 100 "media/".toList "jpg".toList exFS) exTwoUploads).getD
    (Sys.init 1 100 "media/".toList "jpg".toList exFS)

/-! ## The gates around a handler's body -/

theorem Acquire_ok_cur (s sem : Weighted) (ctx : Context) (n : Nat)
    (h : s.Acquire ctx n = .ok sem) :
    sem = { s with cur := s.cur + n } ∧ s.cur + n ≤ s.size := by
  unfold Weighted.Acquire at h
  cases ctx with
  | background =>
    simp only at h
    split at h
    · injection h with h1; exact ⟨h1.symm, by assumption⟩
    · cases h
  | done e => cases h
  | doneLater e =>
    simp only at h
    split at h
    · injection h with h1; exact ⟨h1.symm, by assumption⟩
    · cases h

theorem Acquire_ok_Release (s sem : Weighted) (ctx : Context)
    (h : s.Acquire ctx 1 = .ok sem) : sem.Release 1 = some s := by
  obtain ⟨h1, _⟩ := Acquire_ok_cur s sem ctx 1 h
  subst h1
  simp [Weighted.Release]

theorem gate_setGate (w : World) (g : Gate) (s : Weighted) : (w.setGate g s).gate g = s := by
  cases g <;> rfl

theorem gate_emit (w : World) (g : Gate) (e : Event) : (w.emit e).gate g = w.gate g := by
  cases g <;> rfl

theorem gate_of_srv (w1 w2 : World) (g : Gate) (h : w1.srv = w2.srv) : w1.gate g = w2.gate g := by
  cases g <;> simp [World.gate, h]

theorem guarded_ok {α : Type} (g : Gate) (w : World) (ctx : Context)
    (body : World → World × Result α) (sem : Weighted)
    (hacq : (w.gate g).Acquire ctx 1 = .ok sem)
    (hsrv : ∀ w0, (body w0).1.srv = w0.srv) :
    guarded g w ctx body =
      .returned
        (((body ((w.setGate g sem).emit (.acquire g))).1.setGate g (w.gate g)).emit (.release g))
        (body ((w.setGate g sem).emit (.acquire g))).2 := by
  have hrel := Acquire_ok_Release _ _ _ hacq
  have hg : (body ((w.setGate g sem).emit (.acquire g))).1.gate g = sem := by
    rw [gate_of_srv _ _ g (hsrv _), gate_emit, gate_setGate]
  unfold guarded
  rw [hacq]
  simp only
  rw [hg, hrel]

theorem guarded_err {α : Type} (g : Gate) (w : World) (ctx : Context)
    (body : World → World × Result α) (e : CtxErr)
    (hacq : (w.gate g).Acquire ctx 1 = .err e) :
    guarded g w ctx body = .returned w (.error (.context e)) := by
  unfold guarded
  rw [hacq]

theorem saveImageToDisk_srv (w : World) (n : Str) (d : List Byte) :
    (saveImageToDisk w n d).1.srv = w.srv := by
  unfold saveImageToDisk
  simp only
  split <;> rfl

theorem saveImageToDisk_trace (w : World) (n : Str) (d : List Byte) :
    (saveImageToDisk w n d).1.trace =
      w.trace ++ [.writeFile (Join w.srv.imageDir (getFileName w.srv n))] := by
  unfold saveImageToDisk
  simp only
  split <;> rfl

theorem UploadImageBody_fst (req : UploadImageRequest) (w : World) :
    (UploadImageBody req w).1 = (saveImageToDisk w req.ImageName req.ImageData).1 := by
  unfold UploadImageBody
  split <;> simp_all

theorem UploadImageBody_ok (req : UploadImageRequest) : BodyOK (UploadImageBody req) := by
  intro w
  rw [UploadImageBody_fst]
  refine ⟨saveImageToDisk_srv _ _ _, _, saveImageToDisk_trace _ _ _, ?_⟩
  intro e he
  simp at he
  subst he
  rfl

theorem readImage_fst (w : World) (n : Str) :
    (readImage w n).1 = w.emit (.readFile (sprintfSlash w.srv.imageDir n)) := by
  unfold readImage
  simp only
  split <;> rfl

theorem GetImageBody_fst (req : GetImageRequest) (w : World) :
    (GetImageBody req w).1 = w.emit (.readFile (sprintfSlash w.srv.imageDir req.ImageName)) := by
  rw [← readImage_fst]
  unfold GetImageBody
  split
  · split <;> simp_all
  · simp_all

theorem GetImageBody_ok (req : GetImageRequest) : BodyOK (GetImageBody req) := by
  intro w
  rw [GetImageBody_fst]
  refine ⟨rfl, [.readFile (sprintfSlash w.srv.imageDir req.ImageName)], rfl, ?_⟩
  intro e he
  simp at he
  subst he
  rfl

/-! ## The listing loop -/

theorem getCreationModificationDate_fst (w : World) (n : Str) :
    (getCreationModificationDate w n).1 = w.emit (.openFile (Join w.srv.imageDir n)) := by
  unfold getCreationModificationDate
  simp only
  split <;> rfl

theorem getCreationModificationDate_snd (w1 w2 : World) (n : Str)
    (hsrv : w1.srv.imageDir = w2.srv.imageDir) (hfs : w1.fs = w2.fs) :
    (getCreationModificationDate w1 n).2 = (getCreationModificationDate w2 n).2 := by
  unfold getCreationModificationDate
  simp only [hsrv, hfs]
  split <;> rfl

theorem infoOf_congr (w1 w2 : World) (hsrv : w1.srv.imageDir = w2.srv.imageDir)
    (hfs : w1.fs = w2.fs) :
    infoOf w1 = infoOf w2 := by
  funext file
  unfold infoOf
  rw [getCreationModificationDate_snd w1 w2 _ hsrv hfs]

theorem getImagesInfoLoop_spec (files : List DirEntry) :
    ∀ (w : World) (acc : List ImageInfo),
      (getImagesInfoLoop w files acc).2 =
          acc ++ (files.filter (fun f => !f.IsDir)).map (infoOf w) ∧
        (getImagesInfoLoop w files acc).1.srv = w.srv ∧
        (getImagesInfoLoop w files acc).1.fs = w.fs ∧
        ∃ mid, (getImagesInfoLoop w files acc).1.trace = w.trace ++ mid ∧
          ∀ e ∈ mid, e.isGate = false := by
  induction files with
  | nil =>
    intro w acc
    exact ⟨by simp [getImagesInfoLoop], rfl, rfl, [], by simp [getImagesInfoLoop], by simp⟩
  | cons file rest ih =>
    intro w acc
    by_cases hd : file.IsDir = true
    · have hstep : getImagesInfoLoop w (file :: rest) acc = getImagesInfoLoop w rest acc := by
        simp [getImagesInfoLoop, hd]
      rw [hstep]
      obtain ⟨h1, h2, h3, h4⟩ := ih w acc
      refine ⟨?_, h2, h3, h4⟩
      rw [h1]
      simp [List.filter, hd]
    · have hd2 : file.IsDir = false := by simpa using hd
      have hstep : getImagesInfoLoop w (file :: rest) acc =
          getImagesInfoLoop (getCreationModificationDate w file.Name).1 rest
            (acc ++ [infoOf w file]) := by
        simp [getImagesInfoLoop, hd2, infoOf]
      rw [hstep]
      obtain ⟨h1, h2, h3, mid, h4, h5⟩ :=
        ih (getCreationModificationDate w file.Name).1 (acc ++ [infoOf w file])
      have e1 : (getCreationModificationDate w file.Name).1.srv = w.srv := by
        rw [getCreationModificationDate_fst]; rfl
      have e2 : (getCreationModificationDate w file.Name).1.fs = w.fs := by
        rw [getCreationModificationDate_fst]; rfl
      refine ⟨?_, h2.trans e1, h3.trans e2, ?_⟩
      · rw [h1, infoOf_congr _ w (by rw [e1]) e2]
        simp [List.filter, hd2]
      · refine ⟨.openFile (Join w.srv.imageDir file.Name) :: mid, ?_, ?_⟩
        · rw [h4, getCreationModificationDate_fst]
          simp [World.emit]
        · intro e he
          rcases List.mem_cons.1 he with h | h
          · subst h; rfl
          · exact h5 e h

theorem getImagesInfo_srv (w : World) : (getImagesInfo w).1.srv = w.srv := by
  unfold getImagesInfo
  simp only
  split
  · rfl
  · rename_i files _
    exact (getImagesInfoLoop_spec files _ []).2.1

theorem getImagesInfo_trace (w : World) :
    ∃ mid, (getImagesInfo w).1.trace = w.trace ++ mid ∧ ∀ e ∈ mid, e.isGate = false := by
  unfold getImagesInfo
  simp only
  split
  · refine ⟨[.readDir w.srv.imageDir], rfl, ?_⟩
    intro e he
    simp at he
    subst he
    rfl
  · rename_i files _
    obtain ⟨mid, h4, h5⟩ := (getImagesInfoLoop_spec files (w.emit (.readDir w.srv.imageDir)) []).2.2.2
    refine ⟨.readDir w.srv.imageDir :: mid, ?_, ?_⟩
    · simp only [h4]
      simp [World.emit]
    · intro e he
      rcases List.mem_cons.1 he with h | h
      · subst h; rfl
      · exact h5 e h

theorem getImagesInfo_ok (w : World) (files : List DirEntry)
    (h : os_ReadDir w.fs w.srv.imageDir = .ok files) :
    (getImagesInfo w).2 = .ok ((files.filter (fun f => !f.IsDir)).map (infoOf w)) ∧
      (getImagesInfo w).1.fs = w.fs := by
  have hs := getImagesInfoLoop_spec files (w.emit (.readDir w.srv.imageDir)) []
  unfold getImagesInfo
  simp only [h]
  refine ⟨?_, hs.2.2.1⟩
  rw [hs.1]
  simp only [List.nil_append]
  rw [infoOf_congr (w.emit (.readDir w.srv.imageDir)) w rfl rfl]

theorem GetImageListBody_fst (w : World) : (GetImageListBody w).1 = (getImagesInfo w).1 := by
  unfold GetImageListBody
  split <;> simp_all

theorem GetImageListBody_ok : BodyOK GetImageListBody := by
  intro w
  rw [GetImageListBody_fst]
  exact ⟨getImagesInfo_srv w, getImagesInfo_trace w⟩

/-! ## The handlers between acquisition and release -/

theorem guarded_released {α : Type} (g : Gate) (w : World) (ctx : Context)
    (body : World → World × Result α) (sem : Weighted)
    (hacq : (w.gate g).Acquire ctx 1 = .ok sem) (hbody : BodyOK body) :
    ∃ w1 r mid, guarded g w ctx body = .returned w1 r ∧ w1.srv = w.srv ∧
      w1.trace = w.trace ++ .acquire g :: mid ++ [.release g] ∧
      ∀ e ∈ mid, e.isGate = false := by
  obtain ⟨hsrv, mid, htr, hmid⟩ := hbody ((w.setGate g sem).emit (.acquire g))
  refine ⟨_, _, mid, guarded_ok g w ctx body sem hacq (fun w0 => (hbody w0).1), ?_, ?_, hmid⟩
  · cases g <;> simp_all [World.setGate, World.emit, World.gate]
  · cases g <;> simp_all [World.setGate, World.emit, World.gate]

theorem saveImageToDisk_ok (w : World) (n : Str) (d : List Byte) (fs1 : FS)
    (h : os_WriteFile w.fs (Join w.srv.imageDir (n ++ '.' :: w.srv.imageExt)) d = .ok fs1) :
    (saveImageToDisk w n d).2 = .ok (n ++ '.' :: w.srv.imageExt) ∧
      (saveImageToDisk w n d).1.fs = fs1 := by
  simp [saveImageToDisk, getFileName, sprintfDot, h]

theorem UploadImageBody_written (req : UploadImageRequest) (w : World) (fs1 : FS)
    (h : os_WriteFile w.fs
      (Join w.srv.imageDir (req.ImageName ++ '.' :: w.srv.imageExt)) req.ImageData = .ok fs1) :
    (UploadImageBody req w).2 = .ok { ImageName := req.ImageName ++ '.' :: w.srv.imageExt } ∧
      (UploadImageBody req w).1.fs = fs1 := by
  obtain ⟨h1, h2⟩ := saveImageToDisk_ok w req.ImageName req.ImageData fs1 h
  rw [UploadImageBody_fst]
  refine ⟨?_, h2⟩
  unfold UploadImageBody
  split
  · rename_i heq
    rw [heq] at h1
    cases h1
  · rename_i heq
    rw [heq] at h1
    simp only at h1
    injection h1 with h1
    rw [h1]

/-! ## Independence of the two gates -/

theorem UploadImageBody_setGate (req : UploadImageRequest) (w : World) (g : Gate) (x : Weighted) :
    UploadImageBody req (w.setGate g x) =
      ((UploadImageBody req w).1.setGate g x, (UploadImageBody req w).2) := by
  cases g <;>
    (simp only [UploadImageBody, saveImageToDisk, World.setGate, World.emit, getFileName]
     cases os_WriteFile w.fs (Join w.srv.imageDir (sprintfDot req.ImageName w.srv.imageExt))
       req.ImageData <;> rfl)

theorem GetImageBody_setGate (req : GetImageRequest) (w : World) (g : Gate) (x : Weighted) :
    GetImageBody req (w.setGate g x) =
      ((GetImageBody req w).1.setGate g x, (GetImageBody req w).2) := by
  cases g <;>
    (simp only [GetImageBody, readImage, World.setGate, World.emit]
     cases os_ReadFile w.fs (sprintfSlash w.srv.imageDir req.ImageName) with
     | ok d => rfl
     | error err => cases h : os_IsNotExist err <;> simp [h])

theorem getCreationModificationDate_setGate (w : World) (n : Str) (g : Gate) (x : Weighted) :
    getCreationModificationDate (w.setGate g x) n =
      ((getCreationModificationDate w n).1.setGate g x, (getCreationModificationDate w n).2) := by
  cases g <;>
    (simp only [getCreationModificationDate, World.setGate, World.emit]
     cases times_StatFile w.fs (os_Open w.fs (Join w.srv.imageDir n)) <;> rfl)

theorem getImagesInfoLoop_setGate (files : List DirEntry) (g : Gate) (x : Weighted) :
    ∀ (w : World) (acc : List ImageInfo),
      getImagesInfoLoop (w.setGate g x) files acc =
        ((getImagesInfoLoop w files acc).1.setGate g x, (getImagesInfoLoop w files acc).2) := by
  induction files with
  | nil => intro w acc; rfl
  | cons file rest ih =>
    intro w acc
    by_cases hd : file.IsDir = true
    · simp only [getImagesInfoLoop, hd, if_true]
      exact ih w acc
    · have hd2 : file.IsDir = false := by simpa using hd
      simp only [getImagesInfoLoop, hd2, getCreationModificationDate_setGate]
      exact ih _ _

theorem GetImageListBody_setGate (w : World) (g : Gate) (x : Weighted) :
    GetImageListBody (w.setGate g x) =
      ((GetImageListBody w).1.setGate g x, (GetImageListBody w).2) := by
  have hl := fun files => getImagesInfoLoop_setGate files g x (w.emit (.readDir w.srv.imageDir)) []
  have e1 : (w.setGate g x).emit (.readDir w.srv.imageDir) =
      (w.emit (.readDir w.srv.imageDir)).setGate g x := by cases g <;> rfl
  have e2 : (w.setGate g x).fs = w.fs := by cases g <;> rfl
  have e3 : (w.setGate g x).srv.imageDir = w.srv.imageDir := by cases g <;> rfl
  simp only [GetImageListBody, getImagesInfo, e2, e3]
  rw [e1]
  cases os_ReadDir w.fs w.srv.imageDir with
  | error err => rfl
  | ok files => simp only [hl files]

theorem guarded_setGate {α : Type} (g g1 : Gate) (hne : g ≠ g1) (w : World) (ctx : Context)
    (x : Weighted) (body : World → World × Result α)
    (hbody : ∀ w0, body (w0.setGate g1 x) = ((body w0).1.setGate g1 x, (body w0).2)) :
    guarded g (w.setGate g1 x) ctx body = (guarded g w ctx body).withGate g1 x := by
  have e1 : ∀ w0 : World, (w0.setGate g1 x).gate g = w0.gate g := by
    intro w0; cases g <;> cases g1 <;> first | rfl | exact absurd rfl hne
  have e2 : ∀ (w0 : World) (s : Weighted) (e : Event),
      ((w0.setGate g1 x).setGate g s).emit e = ((w0.setGate g s).emit e).setGate g1 x := by
    intro w0 s e; cases g <;> cases g1 <;> first | rfl | exact absurd rfl hne
  unfold guarded
  rw [e1]
  cases (w.gate g).Acquire ctx 1 with
  | blocked => rfl
  | err e => rfl
  | ok sem =>
    simp only [e2, hbody, e1]
    cases ((body ((w.setGate g sem).emit (.acquire g))).1.gate g).Release 1 with
    | none => rfl
    | some sem2 => simp only [Outcome.withGate, e2]

theorem guarded_admitted {α : Type} (g : Gate) (w : World)
    (body : World → World × Result α) (hfree : (w.gate g).cur < (w.gate g).size)
    (hbody : BodyOK body) :
    ∃ w1 r, guarded g w .background body = .returned w1 r := by
  have hacq : (w.gate g).Acquire .background 1 =
      .ok { (w.gate g) with cur := (w.gate g).cur + 1 } := by
    simp only [Weighted.Acquire]
    rw [if_pos (by omega)]
  obtain ⟨w1, r, _, h, _⟩ := guarded_released g w .background body _ hacq hbody
  exact ⟨w1, r, h⟩

/-! ## Paths: splitting, joining, lookup -/

theorem splitSlash_ne_nil (p : Str) : splitSlash p ≠ [] := by
  induction p with
  | nil => simp [splitSlash]
  | cons c cs ih =>
    unfold splitSlash
    split
    · simp
    · split <;> simp

theorem splitSlash_cons_of_ne (c : Char) (cs : Str) (h : c ≠ '/') :
    ∃ x xs, splitSlash cs = x :: xs ∧ splitSlash (c :: cs) = (c :: x) :: xs := by
  cases hs : splitSlash cs with
  | nil => exact absurd hs (splitSlash_ne_nil cs)
  | cons x xs =>
    refine ⟨x, xs, rfl, ?_⟩
    simp only [splitSlash, if_neg h, hs]

theorem splitSlash_append_slash (a b : Str) :
    splitSlash (a ++ '/' :: b) = splitSlash a ++ splitSlash b := by
  induction a with
  | nil => simp [splitSlash]
  | cons c cs ih =>
    by_cases h : c = '/'
    · subst h
      simp [splitSlash, ih]
    · obtain ⟨x, xs, e1, e2⟩ := splitSlash_cons_of_ne c cs h
      obtain ⟨y, ys, e3, e4⟩ := splitSlash_cons_of_ne c (cs ++ '/' :: b) h
      rw [List.cons_append, e4, e2]
      rw [ih, e1] at e3
      simp only [List.cons_append, List.cons.injEq] at e3
      simp [e3.1, e3.2]

theorem splitSlash_plain (n : Str) (h : '/' ∉ n) : splitSlash n = [n] := by
  induction n with
  | nil => rfl
  | cons c cs ih =>
    have hc : c ≠ '/' := fun e => h (by simp [e])
    have hcs : '/' ∉ cs := fun e => h (by simp [e])
    simp [splitSlash, if_neg hc, ih hcs]

theorem mem_splitSlash (p : Str) : ∀ c ∈ splitSlash p, '/' ∉ c ∧ ∀ x ∈ c, x ∈ p := by
  induction p with
  | nil => intro c hc; simp [splitSlash] at hc; subst hc; simp
  | cons a as ih =>
    intro c hc
    by_cases h : a = '/'
    · subst h
      simp only [splitSlash, if_true, List.mem_cons] at hc
      rcases hc with hc | hc
      · subst hc; simp
      · exact ⟨(ih c hc).1, fun x hx => List.mem_cons_of_mem _ ((ih c hc).2 x hx)⟩
    · obtain ⟨x, xs, e1, e2⟩ := splitSlash_cons_of_ne a as h
      rw [e2] at hc
      rcases List.mem_cons.1 hc with hc | hc
      · subst hc
        have hx := ih x (by rw [e1]; simp)
        refine ⟨?_, ?_⟩
        · intro hm
          rcases List.mem_cons.1 hm with hm | hm
          · exact h hm.symm
          · exact hx.1 hm
        · intro y hy
          rcases List.mem_cons.1 hy with hy | hy
          · subst hy; simp
          · exact List.mem_cons_of_mem _ (hx.2 y hy)
      · have hx := ih c (by rw [e1]; exact List.mem_cons_of_mem _ hc)
        exact ⟨hx.1, fun y hy => List.mem_cons_of_mem _ (hx.2 y hy)⟩

theorem splitSlash_joinSlash (xs : List Str) (hne : xs ≠ []) (h : ∀ c ∈ xs, '/' ∉ c) :
    splitSlash (joinSlash xs) = xs := by
  induction xs with
  | nil => exact absurd rfl hne
  | cons x rest ih =>
    cases rest with
    | nil =>
      simp only [joinSlash]
      exact splitSlash_plain x (h x (by simp))
    | cons y rest2 =>
      simp only [joinSlash]
      rw [splitSlash_append_slash, splitSlash_plain x (h x (by simp)),
        ih (by simp) (fun c hc => h c (List.mem_cons_of_mem _ hc))]
      rfl

theorem mem_joinSlash (xs : List Str) (a : Char) (ha : a ≠ '/') :
    a ∈ joinSlash xs ↔ ∃ c ∈ xs, a ∈ c := by
  induction xs with
  | nil => simp [joinSlash]
  | cons x rest ih =>
    cases rest with
    | nil => simp [joinSlash]
    | cons y rest2 =>
      simp only [joinSlash, List.mem_append, List.mem_cons, ih]
      constructor
      · rintro (h | h | h)
        · exact ⟨x, Or.inl rfl, h⟩
        · exact absurd h ha
        · obtain ⟨c, hc, hac⟩ := h
          exact ⟨c, Or.inr (by simpa using hc), hac⟩
      · rintro ⟨c, hc | hc, hac⟩
        · subst hc; exact Or.inl hac
        · exact Or.inr (Or.inr ⟨c, by simpa using hc, hac⟩)

theorem walk_append (fs : FS) (a b : List Str) :
    ∀ p q, walk fs p a = .ok q → walk fs p (a ++ b) = walk fs q b := by
  induction a with
  | nil => intro p q h; simp [walk] at h; subst h; rfl
  | cons c cs ih =>
    intro p q h
    simp only [walk, List.cons_append] at h ⊢
    cases hs : walkStep fs p c with
    | error e => rw [hs] at h; cases h
    | ok p1 =>
      rw [hs] at h
      simp only at h ⊢
      exact ih p1 q h

theorem walk_append_ok (fs : FS) (a b : List Str) :
    ∀ p r, walk fs p (a ++ b) = .ok r → ∃ q, walk fs p a = .ok q ∧ walk fs q b = .ok r := by
  induction a with
  | nil => intro p r h; exact ⟨p, rfl, h⟩
  | cons c cs ih =>
    intro p r h
    simp only [walk, List.cons_append] at h ⊢
    cases hs : walkStep fs p c with
    | error e => rw [hs] at h; cases h
    | ok p1 =>
      rw [hs] at h
      simp only at h ⊢
      exact ih p1 r h

theorem walk_single (fs : FS) (p : Loc) (c : Str) : walk fs p [c] = walkStep fs p c := by
  simp only [walk]
  cases walkStep fs p c <;> rfl

theorem walkStep_ok_dir (fs : FS) (p q : Loc) (c : Str) (h : walkStep fs p c = .ok q) :
    ∃ nd, fs.lookup p = some nd ∧ nd.isDir = true := by
  unfold walkStep at h
  cases hl : fs.lookup p with
  | none => rw [hl] at h; cases h
  | some nd =>
    rw [hl] at h
    simp only at h
    cases hd : nd.isDir with
    | false => rw [hd] at h; simp at h
    | true => exact ⟨nd, rfl, hd⟩

theorem walkStep_dir (fs : FS) (p : Loc) (c : Str) (nd : Node)
    (hl : fs.lookup p = some nd) (hd : nd.isDir = true) :
    walkStep fs p c =
      if c = [] then .ok p
      else if nd.searchable = false then .error .EACCES
      else if c = dot then .ok p
      else if c = dotdot then .ok p.dropLast
      else if NAME_MAX < byteLen c then .error .ENAMETOOLONG
      else
        match fs.lookup (p ++ [c]) with
        | none => .error .ENOENT
        | some _ => .ok (p ++ [c]) := by
  unfold walkStep
  rw [hl]
  simp [hd]

theorem walkStep_empty (fs : FS) (p : Loc) (nd : Node)
    (hl : fs.lookup p = some nd) (hd : nd.isDir = true) : walkStep fs p [] = .ok p := by
  rw [walkStep_dir fs p [] nd hl hd, if_pos rfl]

theorem walkStep_skip_ok (fs : FS) (p q : Loc) (c : Str) (hc : c = [] ∨ c = dot)
    (h : walkStep fs p c = .ok q) : q = p := by
  obtain ⟨nd, hl, hd⟩ := walkStep_ok_dir fs p q c h
  rw [walkStep_dir fs p c nd hl hd] at h
  rcases hc with hc | hc
  · rw [if_pos hc] at h
    injection h with h
    exact h.symm
  · have hne : c ≠ [] := by rw [hc]; decide
    rw [if_neg hne] at h
    by_cases hs : nd.searchable = false
    · rw [if_pos hs] at h; cases h
    · rw [if_neg hs, if_pos hc] at h
      injection h with h
      exact h.symm

theorem walkStep_up_ok (fs : FS) (p q : Loc) (h : walkStep fs p dotdot = .ok q) :
    q = p.dropLast := by
  obtain ⟨nd, hl, hd⟩ := walkStep_ok_dir fs p q dotdot h
  rw [walkStep_dir fs p dotdot nd hl hd, if_neg (by decide)] at h
  by_cases hs : nd.searchable = false
  · rw [if_pos hs] at h; cases h
  · rw [if_neg hs, if_neg (by decide), if_pos rfl] at h
    injection h with h
    exact h.symm

theorem walkStep_name (fs : FS) (p : Loc) (c : Str) (nd : Node)
    (h1 : c ≠ []) (h2 : c ≠ dot) (h3 : c ≠ dotdot)
    (hl : fs.lookup p = some nd) (hd : nd.isDir = true) (hs : nd.searchable = true)
    (hlen : byteLen c ≤ NAME_MAX) :
    walkStep fs p c =
      match fs.lookup (p ++ [c]) with
      | none => .error .ENOENT
      | some _ => .ok (p ++ [c]) := by
  rw [walkStep_dir fs p c nd hl hd, if_neg h1, if_neg (by simp [hs]), if_neg h2, if_neg h3,
    if_neg (Nat.not_lt.2 hlen)]

/-- What a successful lookup of a real name says: the directory may be
searched, the name is not too long, and the entry exists. -/
theorem walkStep_name_inv (fs : FS) (p q : Loc) (c : Str)
    (h1 : c ≠ []) (h2 : c ≠ dot) (h3 : c ≠ dotdot) (h : walkStep fs p c = .ok q) :
    ∃ nd nd2, fs.lookup p = some nd ∧ nd.isDir = true ∧ nd.searchable = true ∧
      byteLen c ≤ NAME_MAX ∧ q = p ++ [c] ∧ fs.lookup (p ++ [c]) = some nd2 := by
  obtain ⟨nd, hl, hd⟩ := walkStep_ok_dir fs p q c h
  rw [walkStep_dir fs p c nd hl hd, if_neg h1] at h
  by_cases hs : nd.searchable = false
  · rw [if_pos hs] at h; cases h
  · rw [if_neg hs, if_neg h2, if_neg h3] at h
    by_cases hlen : NAME_MAX < byteLen c
    · rw [if_pos hlen] at h; cases h
    · rw [if_neg hlen] at h
      cases hl2 : fs.lookup (p ++ [c]) with
      | none => rw [hl2] at h; cases h
      | some nd2 =>
        rw [hl2] at h
        simp only at h
        injection h with h
        exact ⟨nd, nd2, hl, hd, by simpa using hs, Nat.not_lt.1 hlen, h.symm, rfl⟩

theorem walkStep_name_ok (fs : FS) (p q : Loc) (c : Str)
    (h1 : c ≠ []) (h2 : c ≠ dot) (h3 : c ≠ dotdot) (h : walkStep fs p c = .ok q) :
    q = p ++ [c] ∧ ∃ nd, fs.lookup (p ++ [c]) = some nd := by
  obtain ⟨_, nd2, _, _, _, _, hq, hl2⟩ := walkStep_name_inv fs p q c h1 h2 h3 h
  exact ⟨hq, nd2, hl2⟩

/-! ## Lexical cleaning agrees with lookup wherever lookup succeeds -/

theorem cleanStep_skip (rooted : Bool) (st : List Str) (c : Str) (hc : c = [] ∨ c = dot) :
    cleanStep rooted st c = st := by
  simp [cleanStep, hc]

theorem cleanStep_name (rooted : Bool) (st : List Str) (c : Str)
    (h1 : c ≠ []) (h2 : c ≠ dot) (h3 : c ≠ dotdot) : cleanStep rooted st c = c :: st := by
  simp [cleanStep, h1, h2, h3]

theorem cleanStep_up (rooted : Bool) (st : List Str) :
    cleanStep rooted st dotdot =
      match st with
      | top :: rest => if top = dotdot then (if rooted then st else dotdot :: st) else rest
      | [] => if rooted then [] else [dotdot] := by
  simp [cleanStep, dotdot, dot]

theorem mem_cleanStep (rooted : Bool) (st : List Str) (c x : Str)
    (h : x ∈ cleanStep rooted st c) : x ∈ st ∨ x = c := by
  by_cases hc : c = [] ∨ c = dot
  · rw [cleanStep_skip rooted st c hc] at h; exact Or.inl h
  · have h1 : c ≠ [] := fun e => hc (Or.inl e)
    have h2 : c ≠ dot := fun e => hc (Or.inr e)
    by_cases h3 : c = dotdot
    · subst h3
      rw [cleanStep_up] at h
      cases st with
      | nil =>
        cases rooted
        · simp at h; exact Or.inr h
        · simp at h
      | cons top rest =>
        simp only at h
        by_cases ht : top = dotdot
        · rw [if_pos ht] at h
          cases rooted
          · simp at h
            rcases h with h | h | h
            · exact Or.inr h
            · exact Or.inl (by simp [h])
            · exact Or.inl (by simp [h])
          · exact Or.inl (by simpa using h)
        · rw [if_neg ht] at h
          exact Or.inl (List.mem_cons_of_mem _ h)
    · rw [cleanStep_name rooted st c h1 h2 h3] at h
      rcases List.mem_cons.1 h with h | h
      · exact Or.inr h
      · exact Or.inl h

theorem mem_cleanFold (rooted : Bool) (comps : List Str) :
    ∀ (st : List Str) (x : Str), x ∈ comps.foldl (cleanStep rooted) st → x ∈ st ∨ x ∈ comps := by
  induction comps with
  | nil => intro st x h; exact Or.inl h
  | cons c cs ih =>
    intro st x h
    simp only [List.foldl_cons] at h
    rcases ih _ x h with h | h
    · rcases mem_cleanStep rooted st c x h with h | h
      · exact Or.inl h
      · exact Or.inr (by simp [h])
    · exact Or.inr (List.mem_cons_of_mem _ h)

theorem cleanStep_sound (fs : FS) (rooted : Bool) (s : Loc) (hroot : rooted = true → s = [])
    (st : List Str) (c : Str) (p p1 : Loc) (hst : StackOK rooted st)
    (hw : walk fs s st.reverse = .ok p) (hstep : walkStep fs p c = .ok p1) :
    walk fs s (cleanStep rooted st c).reverse = .ok p1 ∧ StackOK rooted (cleanStep rooted st c) := by
  by_cases hc : c = [] ∨ c = dot
  · rw [cleanStep_skip rooted st c hc]
    have hq := walkStep_skip_ok fs p p1 c hc hstep
    subst hq
    exact ⟨hw, hst⟩
  · have h1 : c ≠ [] := fun e => hc (Or.inl e)
    have h2 : c ≠ dot := fun e => hc (Or.inr e)
    by_cases h3 : c = dotdot
    · subst h3
      have hq := walkStep_up_ok fs p p1 hstep
      rw [cleanStep_up]
      cases st with
      | nil =>
        simp only [List.reverse_nil, walk] at hw
        injection hw with hw
        subst hw
        cases rooted with
        | true =>
          have := hroot rfl
          subst this
          subst hq
          exact ⟨by simp [walk], hst⟩
        | false =>
          refine ⟨?_, ?_⟩
          · simp only [Bool.false_eq_true, if_false, List.reverse_cons, List.reverse_nil,
              List.nil_append]
            rw [walk_single, hstep]
          · refine ⟨?_, by simp⟩
            intro x hx
            simp at hx
            subst hx
            exact ⟨h1, h2⟩
      | cons top rest =>
        simp only
        by_cases ht : top = dotdot
        · rw [if_pos ht]
          cases rooted with
          | true => exact absurd (by simp [ht]) (hst.2 rfl)
          | false =>
            refine ⟨?_, ?_⟩
            · simp only [Bool.false_eq_true, if_false]
              rw [List.reverse_cons, walk_append fs _ _ s p hw, walk_single, hstep]
            · refine ⟨?_, by simp⟩
              intro x hx
              simp only [Bool.false_eq_true, if_false] at hx
              rcases List.mem_cons.1 hx with hx | hx
              · subst hx; exact ⟨h1, h2⟩
              · exact hst.1 x hx
        · rw [if_neg ht]
          rw [List.reverse_cons] at hw
          obtain ⟨p0, hw0, hw1⟩ := walk_append_ok fs _ _ s p hw
          rw [walk_single] at hw1
          have htop := hst.1 top (by simp)
          obtain ⟨hp, _⟩ := walkStep_name_ok fs p0 p top htop.1 htop.2 ht hw1
          subst hp
          subst hq
          refine ⟨by simpa using hw0, ?_, ?_⟩
          · intro x hx
            exact hst.1 x (List.mem_cons_of_mem _ hx)
          · intro hr hm
            exact hst.2 hr (List.mem_cons_of_mem _ hm)
    · rw [cleanStep_name rooted st c h1 h2 h3]
      refine ⟨?_, ?_, ?_⟩
      · rw [List.reverse_cons, walk_append fs _ _ s p hw, walk_single, hstep]
      · intro x hx
        rcases List.mem_cons.1 hx with hx | hx
        · subst hx; exact ⟨h1, h2⟩
        · exact hst.1 x hx
      · intro hr hm
        rcases List.mem_cons.1 hm with hm | hm
        · exact h3 hm.symm
        · exact hst.2 hr hm

theorem cleanFold_sound (fs : FS) (rooted : Bool) (s : Loc) (hroot : rooted = true → s = [])
    (comps : List Str) :
    ∀ (st : List Str) (p q : Loc), StackOK rooted st → walk fs s st.reverse = .ok p →
      walk fs p comps = .ok q →
      walk fs s (comps.foldl (cleanStep rooted) st).reverse = .ok q ∧
        StackOK rooted (comps.foldl (cleanStep rooted) st) := by
  induction comps with
  | nil =>
    intro st p q hst hw hq
    simp only [walk] at hq
    injection hq with hq
    subst hq
    exact ⟨hw, hst⟩
  | cons c cs ih =>
    intro st p q hst hw hq
    simp only [walk] at hq
    cases hs : walkStep fs p c with
    | error e => rw [hs] at hq; cases hq
    | ok p1 =>
      rw [hs] at hq
      simp only at hq
      obtain ⟨h1, h2⟩ := cleanStep_sound fs rooted s hroot st c p p1 hst hw hs
      exact ih _ p1 q h2 h1 hq

/-! ## The path `filepath.Clean` writes out -/

theorem isRooted_append (dir : Str) (rest : Str) (h : dir ≠ []) :
    isRooted (dir ++ rest) = isRooted dir := by
  cases dir with
  | nil => exact absurd rfl h
  | cons c cs => rfl

theorem isRooted_joinSlash (x : Str) (xs : List Str) (h1 : x ≠ []) (h2 : '/' ∉ x) :
    isRooted (joinSlash (x :: xs)) = false := by
  cases x with
  | nil => exact absurd rfl h1
  | cons c cs =>
    have hc : c ≠ '/' := fun e => h2 (by simp [e])
    cases xs with
    | nil => simp [joinSlash, isRooted, hc]
    | cons y ys => simp [joinSlash, isRooted, hc]

theorem walk_nonempty_start_dir (fs : FS) (p q : Loc) (cs : List Str) (hne : cs ≠ [])
    (h : walk fs p cs = .ok q) : ∃ nd, fs.lookup p = some nd ∧ nd.isDir = true := by
  cases cs with
  | nil => exact absurd rfl hne
  | cons c rest =>
    simp only [walk] at h
    cases hs : walkStep fs p c with
    | error e => rw [hs] at h; cases h
    | ok p1 => exact walkStep_ok_dir fs p p1 c hs

theorem resolve_ok (fs : FS) (path : Str) (d : Loc) (h : fs.resolve path = .ok d) :
    path ≠ [] ∧ nul ∉ path ∧ walk fs (fs.start path) (splitSlash path) = .ok d ∧
      byteLen path < PATH_MAX := by
  unfold FS.resolve at h
  by_cases h1 : path = []
  · rw [if_pos h1] at h; cases h
  · rw [if_neg h1] at h
    by_cases h2 : nul ∈ path
    · rw [if_pos h2] at h; cases h
    · rw [if_neg h2] at h
      by_cases h3 : PATH_MAX ≤ byteLen path
      · rw [if_pos h3] at h; cases h
      · rw [if_neg h3] at h
        exact ⟨h1, h2, h, Nat.not_le.1 h3⟩

theorem nul_ne_slash : nul ≠ '/' := by decide

theorem dropLast_append_getLastD (l : List Str) (h : l ≠ []) :
    l.dropLast ++ [l.getLastD []] = l := by
  induction l with
  | nil => exact absurd rfl h
  | cons x xs ih =>
    cases xs with
    | nil => rfl
    | cons y ys =>
      have := ih (by simp)
      simp only [List.dropLast_cons₂, List.getLastD_cons, List.cons_append]
      simp only [List.getLastD_cons] at this
      rw [this]

theorem mem_split_parts (P : Str) :
    (∀ c ∈ (splitSlash P).dropLast, c ∈ splitSlash P) ∧
      (splitSlash P).getLastD [] ∈ splitSlash P := by
  have h := dropLast_append_getLastD (splitSlash P) (splitSlash_ne_nil P)
  constructor
  · intro c hc
    rw [← h]
    exact List.mem_append_left _ hc
  · have hm : (splitSlash P).getLastD [] ∈ (splitSlash P).dropLast ++
        [(splitSlash P).getLastD []] := by simp
    rw [h] at hm
    exact hm

theorem rooted_dropLast_ne_nil (P : Str) (h : isRooted P = true) :
    (splitSlash P).dropLast ≠ [] := by
  cases P with
  | nil => simp [isRooted] at h
  | cons c cs =>
    simp only [isRooted, decide_eq_true_eq] at h
    subst h
    simp only [splitSlash, if_true]
    cases hs : splitSlash cs with
    | nil => exact absurd hs (splitSlash_ne_nil cs)
    | cons x xs => simp

/-- The stack `filepath.Clean` keeps for a path: the stack of the elements
before the last, and then the last element. -/
theorem Clean_eq_render (P : Str) (hP : P ≠ []) :
    Clean P = renderClean (isRooted P)
      (cleanStep (isRooted P)
        ((splitSlash P).dropLast.foldl (cleanStep (isRooted P)) [])
        ((splitSlash P).getLastD [])) := by
  unfold Clean
  rw [if_neg hP]
  unfold cleanStack
  conv => lhs; rw [← dropLast_append_getLastD (splitSlash P) (splitSlash_ne_nil P)]
  rw [List.foldl_append]
  rfl

/-- The path written out for a stack that leads to `parent`, with a real
name `last` on top, splits into elements that lead to `parent`, followed by
`last`. -/
theorem render_split (fs : FS) (rooted : Bool) (st : List Str) (last : Str) (parent : Loc)
    (hroot : rooted = true → ∃ nd, fs.lookup [] = some nd ∧ nd.isDir = true)
    (hst : StackOK rooted st) (hsl : ∀ c ∈ st, '/' ∉ c)
    (hw : walk fs (if rooted then [] else fs.cwd) st.reverse = .ok parent)
    (h1 : last ≠ []) (h2 : '/' ∉ last) :
    ∃ pre, renderClean rooted (last :: st) ≠ [] ∧
      splitSlash (renderClean rooted (last :: st)) = pre ++ [last] ∧
      walk fs (fs.start (renderClean rooted (last :: st))) pre = .ok parent ∧
      ∀ a, a ≠ '/' →
        (a ∈ renderClean rooted (last :: st) ↔ (a ∈ last ∨ ∃ c ∈ st, a ∈ c)) := by
  have hmem : ∀ c ∈ st.reverse ++ [last], '/' ∉ c := by
    intro c hc
    rcases List.mem_append.1 hc with hc | hc
    · exact hsl c (List.mem_reverse.1 hc)
    · simp at hc
      subst hc
      exact h2
  have hX : st.reverse ++ [last] ≠ [] := by simp
  have hsplit := splitSlash_joinSlash _ hX hmem
  have hchars : ∀ a, a ≠ '/' →
      (a ∈ joinSlash (st.reverse ++ [last]) ↔ (a ∈ last ∨ ∃ c ∈ st, a ∈ c)) := by
    intro a ha
    rw [mem_joinSlash _ a ha]
    constructor
    · rintro ⟨c, hc, hx⟩
      rcases List.mem_append.1 hc with hc | hc
      · exact Or.inr ⟨c, List.mem_reverse.1 hc, hx⟩
      · simp at hc
        subst hc
        exact Or.inl hx
    · rintro (hx | ⟨c, hc, hx⟩)
      · exact ⟨last, by simp, hx⟩
      · exact ⟨c, List.mem_append_left _ (List.mem_reverse.2 hc), hx⟩
  cases rooted with
  | true =>
    obtain ⟨nd0, hl0, hd0⟩ := hroot rfl
    have hren : renderClean true (last :: st) = '/' :: joinSlash (st.reverse ++ [last]) := by
      simp [renderClean]
    rw [hren]
    refine ⟨[] :: st.reverse, by simp, ?_, ?_, ?_⟩
    · simp only [splitSlash, if_true, hsplit, List.cons_append]
    · have : fs.start ('/' :: joinSlash (st.reverse ++ [last])) = [] := by
        simp [FS.start, isRooted]
      rw [this]
      simp only [walk]
      rw [walkStep_empty fs [] nd0 hl0 hd0]
      simpa using hw
    · intro a ha
      rw [List.mem_cons, hchars a ha]
      constructor
      · rintro (h | h)
        · exact absurd h ha
        · exact h
      · exact Or.inr
  | false =>
    have hren : renderClean false (last :: st) = joinSlash (st.reverse ++ [last]) := by
      simp [renderClean]
    rw [hren]
    have hroot2 : isRooted (joinSlash (st.reverse ++ [last])) = false := by
      cases hrev : st.reverse with
      | nil =>
        simp only [List.nil_append]
        exact isRooted_joinSlash last [] h1 h2
      | cons x xs =>
        simp only [List.cons_append]
        have hx : x ∈ st := by rw [← List.mem_reverse, hrev]; simp
        exact isRooted_joinSlash x _ (hst.1 x hx).1 (hsl x hx)
    refine ⟨st.reverse, ?_, hsplit, ?_, hchars⟩
    · intro h
      rw [h] at hsplit
      have hl := congrArg List.getLast? hsplit
      simp [splitSlash] at hl
      exact h1 hl
    · have : fs.start (joinSlash (st.reverse ++ [last])) = fs.cwd := by
        simp [FS.start, hroot2]
      rw [this]
      simpa using hw

/-- For a path whose elements before the last lead to `parent` and whose
last element is a real name, the cleaned path splits into elements that lead
to `parent` too, followed by that name. -/
theorem Clean_split (fs : FS) (P : Str) (parent : Loc) (hP : P ≠ [])
    (hpar : walk fs (fs.start P) (splitSlash P).dropLast = .ok parent)
    (h1 : (splitSlash P).getLastD [] ≠ []) (h2 : (splitSlash P).getLastD [] ≠ dot)
    (h3 : (splitSlash P).getLastD [] ≠ dotdot) :
    ∃ pre, Clean P ≠ [] ∧ splitSlash (Clean P) = pre ++ [(splitSlash P).getLastD []] ∧
      walk fs (fs.start (Clean P)) pre = .ok parent ∧
      (∀ a, a ∈ Clean P → a ∈ P) ∧ (∀ a, a ∈ (splitSlash P).getLastD [] → a ∈ Clean P) := by
  obtain ⟨hmd, hml⟩ := mem_split_parts P
  have hstart : fs.start P = if isRooted P then [] else fs.cwd := rfl
  have hroot : isRooted P = true → fs.start P = [] := by
    intro h; simp [FS.start, h]
  obtain ⟨hwD, hokD⟩ := cleanFold_sound fs (isRooted P) (fs.start P) hroot
    (splitSlash P).dropLast [] (fs.start P) parent ⟨by simp, by simp⟩ rfl hpar
  have hin : ∀ c ∈ (splitSlash P).dropLast.foldl (cleanStep (isRooted P)) [],
      c ∈ splitSlash P := by
    intro c hc
    rcases mem_cleanFold _ _ _ c hc with h | h
    · simp at h
    · exact hmd c h
  have hslD : ∀ c ∈ (splitSlash P).dropLast.foldl (cleanStep (isRooted P)) [], '/' ∉ c :=
    fun c hc => (mem_splitSlash P c (hin c hc)).1
  have hr0 : isRooted P = true → ∃ nd, fs.lookup [] = some nd ∧ nd.isDir = true := by
    intro hr
    have := walk_nonempty_start_dir fs _ parent _ (rooted_dropLast_ne_nil P hr) hpar
    rwa [hroot hr] at this
  rw [hstart] at hwD
  obtain ⟨pre, hne, hsp, hwk, hch⟩ := render_split fs (isRooted P) _ _ parent hr0 hokD hslD hwD
    h1 (mem_splitSlash P _ hml).1
  rw [Clean_eq_render P hP, cleanStep_name _ _ _ h1 h2 h3]
  refine ⟨pre, hne, hsp, hwk, ?_, ?_⟩
  · intro a ha
    by_cases hsl : a = '/'
    · subst hsl
      by_contra hnot
      have hplain := splitSlash_plain P hnot
      have hr : isRooted P = false := by
        cases P with
        | nil => rfl
        | cons c cs =>
          have hc : c ≠ '/' := fun e => hnot (by simp [e])
          simp [isRooted, hc]
      rw [hr, hplain] at ha
      simp [renderClean, joinSlash] at ha
      exact hnot ha
    · rcases (hch a hsl).1 ha with h | ⟨c, hc, h⟩
      · exact (mem_splitSlash P _ hml).2 a h
      · exact (mem_splitSlash P c (hin c hc)).2 a h
  · intro a ha
    by_cases hsl : a = '/'
    · subst hsl
      exact absurd ha (mem_splitSlash P _ hml).1
    · exact (hch a hsl).2 (Or.inl ha)

/-- The path joined from a directory that resolves to `d` and a plain name
`n` splits into elements that lead to `d`, followed by `n`. -/
theorem Join_split (fs : FS) (dir n : Str) (d : Loc) (hres : fs.resolve dir = .ok d)
    (hn : PlainName n) :
    ∃ pre, Join dir n ≠ [] ∧ splitSlash (Join dir n) = pre ++ [n] ∧
      walk fs (fs.start (Join dir n)) pre = .ok d ∧
      (nul ∈ Join dir n ↔ nul ∈ n) := by
  obtain ⟨hdir, hnul, hw, _⟩ := resolve_ok fs dir d hres
  have hP : dir ++ '/' :: n ≠ [] := by simp
  have hsp : splitSlash (dir ++ '/' :: n) = splitSlash dir ++ [n] := by
    rw [splitSlash_append_slash, splitSlash_plain n hn.2.1]
  have hdl : (splitSlash (dir ++ '/' :: n)).dropLast = splitSlash dir := by
    rw [hsp, List.dropLast_concat]
  have hlast : (splitSlash (dir ++ '/' :: n)).getLastD [] = n := by
    rw [hsp, List.getLastD_concat]
  have hstart : fs.start (dir ++ '/' :: n) = fs.start dir := by
    simp [FS.start, isRooted_append dir _ hdir]
  obtain ⟨pre, h1, h2, h3, h4, h5⟩ := Clean_split fs (dir ++ '/' :: n) d hP
    (by rw [hdl, hstart]; exact hw) (by rw [hlast]; exact hn.1)
    (by rw [hlast]; exact hn.2.2.1) (by rw [hlast]; exact hn.2.2.2)
  have hJ : Join dir n = Clean (dir ++ '/' :: n) := by
    unfold Join
    rw [if_pos hdir]
  rw [hlast] at h2 h5
  rw [hJ]
  refine ⟨pre, h1, h2, h3, ?_, h5 nul⟩
  intro h
  rcases List.mem_append.1 (h4 nul h) with h | h
  · exact absurd h hnul
  · rcases List.mem_cons.1 h with h | h
    · exact absurd h nul_ne_slash
    · exact h

/-! ## The store after a write -/

theorem assoc_filter_ne (k k1 : Loc) (l : List (Loc × Node)) (h : k1 ≠ k) :
    assoc k1 (l.filter (fun e => decide (e.1 ≠ k))) = assoc k1 l := by
  induction l with
  | nil => rfl
  | cons e rest ih =>
    obtain ⟨ek, ev⟩ := e
    simp only [ne_eq, decide_not] at ih ⊢
    by_cases hek : ek = k
    · subst hek
      have hne : ¬ ek = k1 := fun e => h e.symm
      simp [List.filter, assoc, ih, hne]
    · by_cases hek1 : ek = k1
      · subst hek1
        simp [List.filter, assoc, hek]
      · simp [List.filter, assoc, hek, hek1, ih]

theorem lookup_insert_self (fs : FS) (k : Loc) (v : Node) : (fs.insert k v).lookup k = some v := by
  simp [FS.lookup, FS.insert, assoc]

theorem lookup_insert_ne (fs : FS) (k k1 : Loc) (v : Node) (h : k1 ≠ k) :
    (fs.insert k v).lookup k1 = fs.lookup k1 := by
  have hne : ¬ k = k1 := fun e => h e.symm
  simp only [FS.lookup, FS.insert, assoc, if_neg hne]
  exact assoc_filter_ne k k1 fs.nodes h

theorem assoc_some_mem (k : Loc) (v : Node) (l : List (Loc × Node)) (h : assoc k l = some v) :
    (k, v) ∈ l := by
  induction l with
  | nil => cases h
  | cons e rest ih =>
    obtain ⟨ek, ev⟩ := e
    by_cases hek : ek = k
    · simp only [assoc, if_pos hek] at h
      injection h with h
      subst h; subst hek
      simp
    · simp only [assoc, if_neg hek] at h
      exact List.mem_cons_of_mem _ (ih h)

theorem mem_assoc_some (k : Loc) (v : Node) (l : List (Loc × Node)) (h : (k, v) ∈ l) :
    ∃ v1, assoc k l = some v1 := by
  induction l with
  | nil => cases h
  | cons e rest ih =>
    obtain ⟨ek, ev⟩ := e
    by_cases hek : ek = k
    · exact ⟨ev, by simp [assoc, hek]⟩
    · rcases List.mem_cons.1 h with h | h
      · injection h with h1 h2
        exact absurd h1.symm hek
      · obtain ⟨v1, hv1⟩ := ih h
        exact ⟨v1, by simp [assoc, hek, hv1]⟩

theorem writeEntry_ok_inv (fs fs1 : FS) (name : Str) (parent : Loc) (last : Str)
    (data : List Byte) (h : writeEntry fs name parent last data = .ok fs1) :
    ∃ pd node, fs.lookup parent = some pd ∧ pd.isDir = true ∧
      last ≠ [] ∧ last ≠ dot ∧ last ≠ dotdot ∧
      fs1 = fs.insert (parent ++ [last]) node ∧
      node.isDir = false ∧ node.data = data ∧ node.ctime = fs.now ∧
      (∀ old, fs.lookup (parent ++ [last]) = some old →
        old.isDir = false ∧ node.readable = old.readable) ∧
      (fs.lookup (parent ++ [last]) = none → node.readable = true) ∧
      pd.searchable = true ∧ byteLen last ≤ NAME_MAX := by
  unfold writeEntry at h
  cases hl : fs.lookup parent with
  | none => rw [hl] at h; cases h
  | some pd =>
    rw [hl] at h
    simp only at h
    cases hpd : pd.isDir with
    | false => rw [hpd] at h; simp at h
    | true =>
      rw [hpd] at h
      simp only [Bool.true_eq_false, if_false] at h
      by_cases hl0 : last = []
      · rw [if_pos hl0] at h; cases h
      · rw [if_neg hl0] at h
        cases hps : pd.searchable with
        | false => rw [hps] at h; simp at h
        | true =>
          rw [hps] at h
          simp only [Bool.true_eq_false, if_false] at h
          by_cases hlast : last = dot ∨ last = dotdot
          · rw [if_pos hlast] at h; cases h
          · rw [if_neg hlast] at h
            by_cases hlen : NAME_MAX < byteLen last
            · rw [if_pos hlen] at h; cases h
            · rw [if_neg hlen] at h
              cases hl2 : fs.lookup (parent ++ [last]) with
              | none =>
                rw [hl2] at h
                simp only at h
                cases hpw : pd.writable with
                | false => rw [hpw] at h; simp at h
                | true =>
                  rw [hpw] at h
                  simp only [Bool.true_eq_false, if_false] at h
                  injection h with h
                  refine ⟨pd, fs.newFile data, rfl, hpd, hl0,
                    fun e => hlast (Or.inl e), fun e => hlast (Or.inr e),
                    h.symm, rfl, rfl, rfl, ?_, fun _ => rfl, hps, Nat.not_lt.1 hlen⟩
                  intro old ho
                  cases ho
              | some nd =>
                rw [hl2] at h
                simp only at h
                cases hnd : nd.isDir with
                | true => rw [hnd] at h; simp at h
                | false =>
                  rw [hnd] at h
                  cases hnw : nd.writable with
                  | false => rw [hnw] at h; simp at h
                  | true =>
                    rw [hnw] at h
                    simp only [Bool.false_eq_true, Bool.true_eq_false, if_false] at h
                    injection h with h
                    refine ⟨pd, _, rfl, hpd, hl0,
                      fun e => hlast (Or.inl e), fun e => hlast (Or.inr e),
                      h.symm, rfl, rfl, rfl, ?_, ?_, hps, Nat.not_lt.1 hlen⟩
                    · intro old ho
                      injection ho with ho
                      subst ho
                      exact ⟨hnd, rfl⟩
                    · intro ho
                      cases ho

/-- What a successful write does: the path is not too long, the elements
before the last lead to a directory that may be searched, the last element
is a real name, not too long, that is not a directory there, and the node of
that name is created or replaced by a regular file with the payload. -/
theorem os_WriteFile_ok_inv (fs fs1 : FS) (name : Str) (data : List Byte)
    (h : os_WriteFile fs name data = .ok fs1) :
    name ≠ [] ∧ nul ∉ name ∧
      ∃ parent pd node, walk fs (fs.start name) (splitSlash name).dropLast = .ok parent ∧
        fs.lookup parent = some pd ∧ pd.isDir = true ∧
        (splitSlash name).getLastD [] ≠ [] ∧ (splitSlash name).getLastD [] ≠ dot ∧
        (splitSlash name).getLastD [] ≠ dotdot ∧
        fs1 = fs.insert (parent ++ [(splitSlash name).getLastD []]) node ∧
        node.isDir = false ∧ node.data = data ∧ node.ctime = fs.now ∧
        (∀ old, fs.lookup (parent ++ [(splitSlash name).getLastD []]) = some old →
          old.isDir = false ∧ node.readable = old.readable) ∧
        (fs.lookup (parent ++ [(splitSlash name).getLastD []]) = none →
          node.readable = true) ∧
        pd.searchable = true ∧ byteLen ((splitSlash name).getLastD []) ≤ NAME_MAX ∧
        byteLen name < PATH_MAX := by
  unfold os_WriteFile at h
  by_cases h1 : name = []
  · rw [if_pos h1] at h; cases h
  · rw [if_neg h1] at h
    by_cases h2 : nul ∈ name
    · rw [if_pos h2] at h; cases h
    · rw [if_neg h2] at h
      by_cases h3 : PATH_MAX ≤ byteLen name
      · rw [if_pos h3] at h; cases h
      · rw [if_neg h3] at h
        refine ⟨h1, h2, ?_⟩
        cases hw : walk fs (fs.start name) (splitSlash name).dropLast with
        | error e => rw [hw] at h; cases h
        | ok parent =>
          rw [hw] at h
          simp only at h
          obtain ⟨pd, node, a1, a2, a3, a4, a5, a6, a7, a8, a9, a10, a11, a12, a13⟩ :=
            writeEntry_ok_inv fs fs1 name parent _ data h
          exact ⟨parent, pd, node, rfl, a1, a2, a3, a4, a5, a6, a7, a8, a9, a10, a11, a12, a13,
            Nat.not_le.1 h3⟩

/-- What a successful write under the joined path of a plain name does: the
node at that name in the image directory is created or replaced by a
regular file with the payload; the directory may be searched and neither the
name nor the path is too long. -/
theorem os_WriteFile_Join (fs fs1 : FS) (dir n : Str) (d : Loc) (data : List Byte)
    (hres : fs.resolve dir = .ok d) (hn : PlainName n)
    (hw : os_WriteFile fs (Join dir n) data = .ok fs1) :
    ∃ node, fs1 = fs.insert (d ++ [n]) node ∧ node.isDir = false ∧ node.data = data ∧
      node.ctime = fs.now ∧
      (∀ old, fs.lookup (d ++ [n]) = some old → old.isDir = false ∧ node.readable = old.readable) ∧
      (fs.lookup (d ++ [n]) = none → node.readable = true) ∧ nul ∉ n ∧
      (∃ pd, fs.lookup d = some pd ∧ pd.searchable = true) ∧ byteLen n ≤ NAME_MAX ∧
      byteLen (Join dir n) < PATH_MAX := by
  obtain ⟨pre, _, hsplit, hwalk, hnul⟩ := Join_split fs dir n d hres hn
  obtain ⟨_, hz, parent, pd, node, hpar, hlp, _, _, _, _, hins, h1, h2, h3, h4, h5, h6, h7, h8⟩ :=
    os_WriteFile_ok_inv fs fs1 _ data hw
  rw [hsplit, List.dropLast_concat, hwalk] at hpar
  injection hpar with hpar
  subst hpar
  rw [hsplit, List.getLastD_concat] at hins h4 h5 h7
  exact ⟨node, hins, h1, h2, h3, h4, h5, fun h => hz (hnul.2 h), ⟨pd, hlp, h6⟩, h7, h8⟩

theorem walkStep_insert (fs : FS) (k : Loc) (v : Node) (p q : Loc) (c : Str)
    (hk : ∀ old, fs.lookup k = some old → old.isDir = false)
    (h : walkStep fs p c = .ok q) : walkStep (fs.insert k v) p c = .ok q := by
  obtain ⟨nd, hl, hd⟩ := walkStep_ok_dir fs p q c h
  have hpk : p ≠ k := by
    intro e
    subst e
    have := hk nd hl
    rw [hd] at this
    cases this
  have hl1 : (fs.insert k v).lookup p = some nd := by rw [lookup_insert_ne fs k p v hpk, hl]
  rw [walkStep_dir fs p c nd hl hd] at h
  rw [walkStep_dir _ p c nd hl1 hd]
  by_cases h1 : c = []
  · rw [if_pos h1] at h ⊢; exact h
  · rw [if_neg h1] at h ⊢
    by_cases hs : nd.searchable = false
    · rw [if_pos hs] at h; cases h
    · rw [if_neg hs] at h ⊢
      by_cases h2 : c = dot
      · rw [if_pos h2] at h ⊢; exact h
      · rw [if_neg h2] at h ⊢
        by_cases h3 : c = dotdot
        · rw [if_pos h3] at h ⊢; exact h
        · rw [if_neg h3] at h ⊢
          by_cases hlen : NAME_MAX < byteLen c
          · rw [if_pos hlen] at h; cases h
          · rw [if_neg hlen] at h ⊢
            cases hl2 : fs.lookup (p ++ [c]) with
            | none => rw [hl2] at h; cases h
            | some nd2 =>
              rw [hl2] at h
              simp only at h
              by_cases hck : p ++ [c] = k
              · rw [hck, lookup_insert_self]
                simp only
                rw [← hck]
                exact h
              · rw [lookup_insert_ne fs k _ v hck, hl2]
                exact h

theorem walk_insert (fs : FS) (k : Loc) (v : Node)
    (hk : ∀ old, fs.lookup k = some old → old.isDir = false) (cs : List Str) :
    ∀ p q, walk fs p cs = .ok q → walk (fs.insert k v) p cs = .ok q := by
  induction cs with
  | nil => intro p q h; exact h
  | cons c rest ih =>
    intro p q h
    simp only [walk] at h ⊢
    cases hs : walkStep fs p c with
    | error e => rw [hs] at h; cases h
    | ok p1 =>
      rw [hs] at h
      rw [walkStep_insert fs k v p p1 c hk hs]
      exact ih p1 q h

theorem resolve_insert (fs : FS) (k : Loc) (v : Node) (path : Str) (d : Loc)
    (hk : ∀ old, fs.lookup k = some old → old.isDir = false)
    (h : fs.resolve path = .ok d) : (fs.insert k v).resolve path = .ok d := by
  obtain ⟨h1, h2, h3, h4⟩ := resolve_ok fs path d h
  unfold FS.resolve
  rw [if_neg h1, if_neg h2, if_neg (Nat.not_le.2 h4)]
  exact walk_insert fs k v hk _ _ _ h3

/-! ## Directory listings -/

theorem mem_childNames (fs : FS) (d : Loc) (n : Str) :
    n ∈ fs.childNames d ↔ ∃ nd, fs.lookup (d ++ [n]) = some nd := by
  unfold FS.childNames
  rw [List.mem_filterMap]
  constructor
  · rintro ⟨⟨k, v⟩, hmem, hk⟩
    simp only at hk
    by_cases hc : k ≠ [] ∧ k.dropLast = d
    · rw [if_pos hc] at hk
      have hkd : k = d ++ [n] := by
        have := List.dropLast_append_getLast? n hk
        rw [← this, hc.2]
      subst hkd
      exact mem_assoc_some _ v _ hmem
    · rw [if_neg hc] at hk
      cases hk
  · rintro ⟨nd, hl⟩
    refine ⟨(d ++ [n], nd), assoc_some_mem _ _ _ hl, ?_⟩
    simp

theorem mem_entries (fs : FS) (d : Loc) (e : DirEntry) :
    e ∈ fs.entries d ↔ ∃ nd, fs.lookup (d ++ [e.Name]) = some nd ∧ e.IsDir = nd.isDir := by
  unfold FS.entries
  rw [List.mem_map]
  constructor
  · rintro ⟨nm, hnm, he⟩
    rw [(List.perm_insertionSort _ _).mem_iff, mem_childNames] at hnm
    obtain ⟨nd, hl⟩ := hnm
    subst he
    exact ⟨nd, hl, by simp [hl]⟩
  · rintro ⟨nd, hl, hd⟩
    refine ⟨e.Name, ?_, ?_⟩
    · rw [(List.perm_insertionSort _ _).mem_iff, mem_childNames]
      exact ⟨nd, hl⟩
    · cases e
      simp_all

theorem os_ReadDir_ok (fs : FS) (dir : Str) (files : List DirEntry)
    (h : os_ReadDir fs dir = .ok files) :
    ∃ d nd, fs.resolve dir = .ok d ∧ fs.lookup d = some nd ∧ nd.isDir = true ∧
      nd.readable = true ∧ files = fs.entries d := by
  unfold os_ReadDir at h
  cases hr : fs.resolve dir with
  | error e => rw [hr] at h; cases h
  | ok d =>
    rw [hr] at h
    simp only at h
    cases hl : fs.lookup d with
    | none => rw [hl] at h; cases h
    | some nd =>
      rw [hl] at h
      simp only at h
      cases hd : nd.isDir with
      | false => rw [hd] at h; simp at h
      | true =>
        rw [hd] at h
        cases hrd : nd.readable with
        | false => rw [hrd] at h; simp at h
        | true =>
          rw [hrd] at h
          simp only [Bool.true_eq_false, if_false] at h
          injection h with h
          exact ⟨d, nd, rfl, hl, hd, hrd, h.symm⟩

/-! ## A write under a path that names a directory fails -/

theorem cleanStep_StackOK (rooted : Bool) (st : List Str) (c : Str) (hst : StackOK rooted st) :
    StackOK rooted (cleanStep rooted st c) := by
  by_cases hc : c = [] ∨ c = dot
  · rw [cleanStep_skip rooted st c hc]; exact hst
  · have h1 : c ≠ [] := fun e => hc (Or.inl e)
    have h2 : c ≠ dot := fun e => hc (Or.inr e)
    by_cases h3 : c = dotdot
    · subst h3
      rw [cleanStep_up]
      cases st with
      | nil =>
        cases rooted with
        | true => exact hst
        | false =>
          refine ⟨?_, by simp⟩
          intro x hx
          simp at hx
          subst hx
          exact ⟨h1, h2⟩
      | cons top rest =>
        simp only
        by_cases ht : top = dotdot
        · rw [if_pos ht]
          cases rooted with
          | true => exact hst
          | false =>
            refine ⟨?_, by simp⟩
            intro x hx
            simp only [Bool.false_eq_true, if_false] at hx
            rcases List.mem_cons.1 hx with hx | hx
            · subst hx; exact ⟨h1, h2⟩
            · exact hst.1 x hx
        · rw [if_neg ht]
          refine ⟨?_, ?_⟩
          · intro x hx
            exact hst.1 x (List.mem_cons_of_mem _ hx)
          · intro hr hm
            exact hst.2 hr (List.mem_cons_of_mem _ hm)
    · rw [cleanStep_name rooted st c h1 h2 h3]
      refine ⟨?_, ?_⟩
      · intro x hx
        rcases List.mem_cons.1 hx with hx | hx
        · subst hx; exact ⟨h1, h2⟩
        · exact hst.1 x hx
      · intro hr hm
        rcases List.mem_cons.1 hm with hm | hm
        · exact h3 hm.symm
        · exact hst.2 hr hm

/-- The node a stack with a real name on top leads to is the entry of that
name in the node the rest of the stack leads to. -/
theorem walk_stack_top (fs : FS) (rooted : Bool) (s q : Loc) (nd : Node) (top : Str)
    (rest : List Str) (hst : StackOK rooted (top :: rest)) (htop : top ≠ dotdot)
    (hw : walk fs s (top :: rest).reverse = .ok q)
    (hl : fs.lookup q = some nd) (hd : nd.isDir = true) :
    ∃ p0 nd0, walk fs s rest.reverse = .ok p0 ∧ fs.lookup (p0 ++ [top]) = some nd0 ∧
      nd0.isDir = true := by
  rw [List.reverse_cons] at hw
  obtain ⟨p0, hw0, hw1⟩ := walk_append_ok fs _ _ s q hw
  rw [walk_single] at hw1
  have ht := hst.1 top (by simp)
  obtain ⟨hq1, _⟩ := walkStep_name_ok fs p0 q top ht.1 ht.2 htop hw1
  subst hq1
  exact ⟨p0, nd, hw0, hl, hd⟩

/-- A write under the path written out for a stack fails when the stack is
empty, has `..` on top, or has on top a name that is a directory in the node
the rest of the stack leads to. -/
theorem os_WriteFile_renderClean_fails (fs fs1 : FS) (rooted : Bool) (st : List Str)
    (s : Loc) (data : List Byte)
    (hroot : rooted = true → s = []) (hcwd : rooted = false → s = fs.cwd)
    (hst : StackOK rooted st) (hsl : ∀ c ∈ st, '/' ∉ c)
    (hq : ∀ top rest, st = top :: rest → top ≠ dotdot →
      ∃ p0 nd, walk fs s rest.reverse = .ok p0 ∧ fs.lookup (p0 ++ [top]) = some nd ∧
        nd.isDir = true) :
    os_WriteFile fs (renderClean rooted st) data ≠ .ok fs1 := by
  intro h
  obtain ⟨_, _, parent, pd, _, hpar, hlp, hpd, hl1, hl2, hl3, _, _, _, _, hold, _⟩ :=
    os_WriteFile_ok_inv fs fs1 _ data h
  have hnd : ∀ nd, fs.lookup (parent ++
      [(splitSlash (renderClean rooted st)).getLastD []]) = some nd → nd.isDir = false :=
    fun nd hx => (hold nd hx).1
  cases st with
  | nil =>
    cases rooted with
    | true => simp [renderClean, joinSlash, splitSlash] at hl1
    | false => simp [renderClean, dot, splitSlash] at hl2
  | cons top rest =>
    have hX : rest.reverse ++ [top] ≠ [] := by simp
    have hslX : ∀ c ∈ rest.reverse ++ [top], '/' ∉ c := by
      intro c hc
      apply hsl c
      rcases List.mem_append.1 hc with hc | hc
      · exact List.mem_cons_of_mem _ (List.mem_reverse.1 hc)
      · simp at hc; simp [hc]
    have hsplit := splitSlash_joinSlash _ hX hslX
    have htop := hst.1 top (by simp)
    cases rooted with
    | true =>
      have hs0 := hroot rfl
      subst hs0
      have hren : renderClean true (top :: rest) = '/' :: joinSlash (rest.reverse ++ [top]) := by
        simp [renderClean]
      have hsp : splitSlash (renderClean true (top :: rest)) = ([] :: rest.reverse) ++ [top] := by
        rw [hren]
        simp only [splitSlash, if_true, hsplit, List.cons_append]
      have hstart : fs.start (renderClean true (top :: rest)) = [] := by
        rw [hren]; simp [FS.start, isRooted]
      rw [hsp, List.getLastD_concat] at hl3 hnd
      rw [hsp, List.dropLast_concat, hstart] at hpar
      simp only [walk] at hpar
      cases hs1 : walkStep fs [] [] with
      | error e => rw [hs1] at hpar; cases hpar
      | ok q1 =>
        rw [hs1] at hpar
        simp only at hpar
        have hq1 := walkStep_skip_ok fs [] q1 [] (Or.inl rfl) hs1
        subst hq1
        obtain ⟨p0, nd, hw0, hlq, hdq⟩ := hq top rest rfl hl3
        rw [hw0] at hpar
        injection hpar with hpar
        subst hpar
        have := hnd nd hlq
        rw [hdq] at this
        cases this
    | false =>
      have hs0 := hcwd rfl
      have hren : renderClean false (top :: rest) = joinSlash (rest.reverse ++ [top]) := by
        simp [renderClean]
      have hsp : splitSlash (renderClean false (top :: rest)) = rest.reverse ++ [top] := by
        rw [hren, hsplit]
      have hstart : fs.start (renderClean false (top :: rest)) = s := by
        rw [hren, hs0]
        have hr : isRooted (joinSlash (rest.reverse ++ [top])) = false := by
          cases hrev : rest.reverse with
          | nil =>
            simp only [List.nil_append]
            exact isRooted_joinSlash top [] htop.1 (hsl top (by simp))
          | cons x xs =>
            simp only [List.cons_append]
            have hx : x ∈ rest := by rw [← List.mem_reverse, hrev]; simp
            exact isRooted_joinSlash x _ (hst.1 x (List.mem_cons_of_mem _ hx)).1
              (hsl x (List.mem_cons_of_mem _ hx))
        simp [FS.start, hr]
      rw [hsp, List.getLastD_concat] at hl3 hnd
      obtain ⟨p0, nd, hw0, hlq, hdq⟩ := hq top rest rfl hl3
      rw [hsp, List.dropLast_concat, hstart, hw0] at hpar
      injection hpar with hpar
      subst hpar
      have := hnd nd hlq
      rw [hdq] at this
      cases this

/-- A write under the cleaned form of a path whose last element is empty,
`.` or `..`, and whose elements before it lead to a directory, fails: the
cleaned path names a directory. -/
theorem os_WriteFile_Clean_dots (fs fs1 : FS) (P : Str) (parent : Loc) (pd : Node)
    (data : List Byte) (hP : P ≠ [])
    (hpar : walk fs (fs.start P) (splitSlash P).dropLast = .ok parent)
    (hl : fs.lookup parent = some pd) (hd : pd.isDir = true)
    (hn : (splitSlash P).getLastD [] = [] ∨ (splitSlash P).getLastD [] = dot ∨
      (splitSlash P).getLastD [] = dotdot) :
    os_WriteFile fs (Clean P) data ≠ .ok fs1 := by
  obtain ⟨hmd, _⟩ := mem_split_parts P
  have hroot : isRooted P = true → fs.start P = [] := by
    intro h; simp [FS.start, h]
  have hcwd : isRooted P = false → fs.start P = fs.cwd := by
    intro h; simp [FS.start, h]
  obtain ⟨hwD, hokD⟩ := cleanFold_sound fs (isRooted P) (fs.start P) hroot
    (splitSlash P).dropLast [] (fs.start P) parent ⟨by simp, by simp⟩ rfl hpar
  have hslD : ∀ c ∈ (splitSlash P).dropLast.foldl (cleanStep (isRooted P)) [], '/' ∉ c := by
    intro c hc
    rcases mem_cleanFold _ _ _ c hc with h | h
    · simp at h
    · exact (mem_splitSlash P c (hmd c h)).1
  rw [Clean_eq_render P hP]
  have hskip : (splitSlash P).getLastD [] = [] ∨ (splitSlash P).getLastD [] = dot →
      os_WriteFile fs (renderClean (isRooted P) (cleanStep (isRooted P)
        ((splitSlash P).dropLast.foldl (cleanStep (isRooted P)) [])
        ((splitSlash P).getLastD []))) data ≠ .ok fs1 := by
    intro hs
    rw [cleanStep_skip _ _ _ hs]
    refine os_WriteFile_renderClean_fails fs fs1 _ _ _ data hroot hcwd hokD hslD ?_
    intro top rest hst htop
    rw [hst] at hwD hokD
    exact walk_stack_top fs _ _ parent pd top rest hokD htop hwD hl hd
  rcases hn with hn | hn | hn
  · exact hskip (Or.inl hn)
  · exact hskip (Or.inr hn)
  · rw [hn]
    have hok2 := cleanStep_StackOK (isRooted P) _ dotdot hokD
    have hsl2 : ∀ c ∈ cleanStep (isRooted P)
        ((splitSlash P).dropLast.foldl (cleanStep (isRooted P)) []) dotdot, '/' ∉ c := by
      intro c hc
      rcases mem_cleanStep _ _ _ c hc with h | h
      · exact hslD c h
      · subst h; decide
    refine os_WriteFile_renderClean_fails fs fs1 _ _ _ data hroot hcwd hok2 hsl2 ?_
    intro top rest hst htop
    rw [cleanStep_up] at hst
    cases hstD : (splitSlash P).dropLast.foldl (cleanStep (isRooted P)) [] with
    | nil =>
      rw [hstD] at hst
      simp only at hst
      cases hr : isRooted P with
      | true => rw [hr] at hst; simp at hst
      | false =>
        rw [hr] at hst
        simp only [Bool.false_eq_true, if_false, List.cons.injEq] at hst
        exact absurd hst.1.symm htop
    | cons t0 r0 =>
      rw [hstD] at hst hwD hokD
      simp only at hst
      by_cases ht0 : t0 = dotdot
      · rw [if_pos ht0] at hst
        cases hr : isRooted P with
        | true =>
          rw [hr] at hst
          simp only [if_true, List.cons.injEq] at hst
          exact absurd (hst.1.symm.trans ht0) htop
        | false =>
          rw [hr] at hst
          simp only [Bool.false_eq_true, if_false, List.cons.injEq] at hst
          exact absurd hst.1.symm htop
      · rw [if_neg ht0] at hst
        rw [List.reverse_cons] at hwD
        obtain ⟨p1, hw0, hw1⟩ := walk_append_ok fs _ _ _ parent hwD
        rw [walk_single] at hw1
        obtain ⟨nd1, hl1, hd1⟩ := walkStep_ok_dir fs p1 parent t0 hw1
        have hok3 : StackOK (isRooted P) (top :: rest) := by
          rw [← hst]
          exact ⟨fun x hx => hokD.1 x (List.mem_cons_of_mem _ hx),
            fun hr hm => hokD.2 hr (List.mem_cons_of_mem _ hm)⟩
        rw [hst] at hw0
        exact walk_stack_top fs _ _ p1 nd1 top rest hok3 htop hw0 hl1 hd1

/-- A write under the joined path of `.` or `..` fails: the path names a
directory. -/
theorem os_WriteFile_Join_dots (fs fs1 : FS) (dir n : Str) (d : Loc) (nd : Node)
    (data : List Byte) (hres : fs.resolve dir = .ok d) (hl : fs.lookup d = some nd)
    (hd : nd.isDir = true) (hn : n = dot ∨ n = dotdot) :
    os_WriteFile fs (Join dir n) data ≠ .ok fs1 := by
  obtain ⟨hdir, _, hw, _⟩ := resolve_ok fs dir d hres
  have hnsl : '/' ∉ n := by
    rcases hn with hn | hn <;> subst hn <;> decide
  have hP : dir ++ '/' :: n ≠ [] := by simp
  have hsp : splitSlash (dir ++ '/' :: n) = splitSlash dir ++ [n] := by
    rw [splitSlash_append_slash, splitSlash_plain n hnsl]
  have hdl : (splitSlash (dir ++ '/' :: n)).dropLast = splitSlash dir := by
    rw [hsp, List.dropLast_concat]
  have hlast : (splitSlash (dir ++ '/' :: n)).getLastD [] = n := by
    rw [hsp, List.getLastD_concat]
  have hstart : fs.start (dir ++ '/' :: n) = fs.start dir := by
    simp [FS.start, isRooted_append dir _ hdir]
  have hJ : Join dir n = Clean (dir ++ '/' :: n) := by
    unfold Join
    rw [if_pos hdir]
  rw [hJ]
  exact os_WriteFile_Clean_dots fs fs1 _ d nd data hP (by rw [hdl, hstart]; exact hw) hl hd
    (by rw [hlast]; exact Or.inr hn)

/-! ## Listing -/

theorem GetImageList_listing (w : World) (ctx : Context) (sem : Weighted)
    (files : List DirEntry)
    (hacq : w.srv.getImageListSemaphore.Acquire ctx 1 = .ok sem)
    (hdir : os_ReadDir w.fs w.srv.imageDir = .ok files) :
    ∃ w1, GetImageList w ctx =
      .returned w1 (.ok { ImageInfo := (files.filter (fun f => !f.IsDir)).map (infoOf w) }) ∧
      w1.fs = w.fs := by
  have hg := guarded_ok .getImageList w ctx GetImageListBody sem hacq
    (fun w0 => (GetImageListBody_ok w0).1)
  have hi := getImagesInfo_ok ((w.setGate .getImageList sem).emit (.acquire .getImageList))
    files hdir
  rw [infoOf_congr ((w.setGate .getImageList sem).emit (.acquire .getImageList)) w rfl rfl] at hi
  have hfs : ∀ X : World, ((X.setGate .getImageList (w.gate .getImageList)).emit
      (.release .getImageList)).fs = X.fs := fun _ => rfl
  have hb : (GetImageListBody
      ((w.setGate .getImageList sem).emit (.acquire .getImageList))).2 =
      .ok { ImageInfo := (files.filter (fun f => !f.IsDir)).map (infoOf w) } := by
    unfold GetImageListBody
    split
    · rename_i heq
      have := hi.1
      rw [heq] at this
      cases this
    · rename_i heq
      have := hi.1
      rw [heq] at this
      simp only at this
      injection this with this
      rw [this]
  unfold GetImageList
  rw [hg, hb]
  refine ⟨_, rfl, ?_⟩
  rw [hfs, GetImageListBody_fst, hi.2]
  rfl

/-! ## An upload followed by a listing -/

theorem Time_Format_ne_nil (t : Time) : t.Format ≠ [] := by
  simp [Time.Format]

theorem guarded_ok_inv {α : Type} (g : Gate) (w w1 : World) (ctx : Context)
    (body : World → World × Result α) (a : α) (hsrv : ∀ w0, (body w0).1.srv = w0.srv)
    (h : guarded g w ctx body = .returned w1 (.ok a)) :
    ∃ sem, (w.gate g).Acquire ctx 1 = .ok sem ∧
      (body ((w.setGate g sem).emit (.acquire g))).2 = .ok a ∧
      w1 = ((body ((w.setGate g sem).emit (.acquire g))).1.setGate g (w.gate g)).emit
        (.release g) := by
  cases hacq : (w.gate g).Acquire ctx 1 with
  | blocked =>
    unfold guarded at h
    rw [hacq] at h
    cases h
  | err e =>
    rw [guarded_err g w ctx body e hacq] at h
    cases h
  | ok sem =>
    rw [guarded_ok g w ctx body sem hacq hsrv] at h
    injection h with h1 h2
    exact ⟨sem, rfl, h2, h1.symm⟩

theorem UploadImage_ok_inv (w w1 : World) (ctx : Context) (req : UploadImageRequest)
    (r : UploadImageResponse) (h : UploadImage w ctx req = .returned w1 (.ok r)) :
    ∃ fs1, os_WriteFile w.fs
        (Join w.srv.imageDir (req.ImageName ++ '.' :: w.srv.imageExt)) req.ImageData = .ok fs1 ∧
      w1.fs = fs1 ∧ w1.srv = w.srv ∧ r.ImageName = req.ImageName ++ '.' :: w.srv.imageExt := by
  obtain ⟨sem, hacq, hres, hw1⟩ := guarded_ok_inv .getUploadImage w w1 ctx _ r
    (fun w0 => (UploadImageBody_ok req w0).1) h
  cases hwr : os_WriteFile w.fs
      (Join w.srv.imageDir (req.ImageName ++ '.' :: w.srv.imageExt)) req.ImageData with
  | error err =>
    have : (UploadImageBody req
        ((w.setGate .getUploadImage sem).emit (.acquire .getUploadImage))).2 =
        .error (.status .Internal ("Error saving image: ".toList ++ err.Error)) := by
      have hwr2 : os_WriteFile w.fs (Join w.srv.imageDir (sprintfDot req.ImageName w.srv.imageExt))
          req.ImageData = .error err := hwr
      simp only [UploadImageBody, saveImageToDisk, getFileName, World.setGate, World.emit, hwr2]
    rw [this] at hres
    cases hres
  | ok fs1 =>
    obtain ⟨hb1, hb2⟩ := UploadImageBody_written req
      ((w.setGate .getUploadImage sem).emit (.acquire .getUploadImage)) fs1 hwr
    rw [hb1] at hres
    injection hres with hres
    refine ⟨fs1, rfl, ?_, ?_, ?_⟩
    · rw [hw1, ← hb2]; rfl
    · obtain ⟨_, _, _, _, hs, _⟩ := guarded_released .getUploadImage w ctx _ sem hacq
        (UploadImageBody_ok req)
      have hg := guarded_ok .getUploadImage w ctx (UploadImageBody req) sem hacq
        (fun w0 => (UploadImageBody_ok req w0).1)
      rw [hw1]
      have e1 := (UploadImageBody_ok req
        ((w.setGate .getUploadImage sem).emit (.acquire .getUploadImage))).1
      simp only [World.setGate, World.emit, World.gate] at e1 ⊢
      rw [e1]
    · rw [← hres]
      rfl

/-- What the listing shows right after a successful upload under a plain
file name into a listable image directory. -/
theorem list_after_upload (w w1 : World) (ctx1 ctx2 : Context) (req : UploadImageRequest)
    (r : UploadImageResponse) (sem2 : Weighted) (files : List DirEntry)
    (hslash : '/' ∉ req.ImageName ++ '.' :: w.srv.imageExt)
    (hroot : os_ReadDir w.fs w.srv.imageDir = .ok files)
    (hup : UploadImage w ctx1 req = .returned w1 (.ok r))
    (hacq : w1.srv.getImageListSemaphore.Acquire ctx2 1 = .ok sem2) :
    ∃ w2 infos, GetImageList w1 ctx2 = .returned w2 (.ok { ImageInfo := infos }) ∧
      ∃ i ∈ infos, i.ImageName = r.ImageName ∧
        ((∀ d old, w.fs.resolve w.srv.imageDir = .ok d →
            w.fs.lookup (d ++ [r.ImageName]) = some old → old.readable = true) →
          i.ModificationDate = w.fs.now.Format) := by
  obtain ⟨fs1, hwr, hfs1, hsrv1, hr⟩ := UploadImage_ok_inv w w1 ctx1 req r hup
  obtain ⟨d, rd, hres, hld, hrdir, hrread, _⟩ := os_ReadDir_ok w.fs _ files hroot
  have hname : PlainName (req.ImageName ++ '.' :: w.srv.imageExt) := by
    refine ⟨by simp, hslash, ?_, ?_⟩
    · intro e
      exact os_WriteFile_Join_dots w.fs fs1 _ _ d rd req.ImageData hres hld hrdir
        (Or.inl e) hwr
    · intro e
      exact os_WriteFile_Join_dots w.fs fs1 _ _ d rd req.ImageData hres hld hrdir
        (Or.inr e) hwr
  obtain ⟨node, hins, hnd, _, hct, hold, hnew, hnuln, ⟨pd, hlpd, hsearch⟩, hlen, hplen⟩ :=
    os_WriteFile_Join w.fs fs1 _ _ d req.ImageData hres hname hwr
  have hpd : pd = rd := by
    rw [hld] at hlpd
    injection hlpd with hlpd
    exact hlpd.symm
  rw [hpd] at hsearch
  have hk : ∀ old, w.fs.lookup (d ++ [req.ImageName ++ '.' :: w.srv.imageExt]) = some old →
      old.isDir = false := fun old ho => (hold old ho).1
  have hdne : d ≠ d ++ [req.ImageName ++ '.' :: w.srv.imageExt] := by
    intro e
    have := congrArg List.length e
    simp at this
  have hres1 : w1.fs.resolve w1.srv.imageDir = .ok d := by
    rw [hfs1, hsrv1, hins]
    exact resolve_insert w.fs _ node _ d hk hres
  have hld1 : w1.fs.lookup d = some rd := by
    rw [hfs1, hins, lookup_insert_ne w.fs _ d node hdne, hld]
  have hln1 : w1.fs.lookup (d ++ [req.ImageName ++ '.' :: w.srv.imageExt]) = some node := by
    rw [hfs1, hins, lookup_insert_self]
  have hdir1 : os_ReadDir w1.fs w1.srv.imageDir = .ok (w1.fs.entries d) := by
    unfold os_ReadDir
    rw [hres1]
    simp only [hld1, hrdir, hrread, Bool.true_eq_false, if_false]
  obtain ⟨w2, hlist, _⟩ := GetImageList_listing w1 ctx2 sem2 _ hacq hdir1
  refine ⟨w2, _, hlist, infoOf w1 ⟨req.ImageName ++ '.' :: w.srv.imageExt, false⟩, ?_, ?_, ?_⟩
  · rw [List.mem_map]
    refine ⟨⟨req.ImageName ++ '.' :: w.srv.imageExt, false⟩, ?_, rfl⟩
    rw [List.mem_filter]
    refine ⟨?_, rfl⟩
    rw [mem_entries]
    exact ⟨node, hln1, hnd.symm⟩
  · rw [hr]; rfl
  · intro hreadable
    have hnr : node.readable = true := by
      cases ho : w.fs.lookup (d ++ [req.ImageName ++ '.' :: w.srv.imageExt]) with
      | none => exact hnew ho
      | some old =>
        rw [(hold old ho).2]
        exact hreadable d old hres (by rw [hr]; exact ho)
    obtain ⟨pre, hne, hsplit, hwalk, hnul⟩ :=
      Join_split w1.fs w1.srv.imageDir _ d hres1 hname
    have hresJ : w1.fs.resolve (Join w1.srv.imageDir (req.ImageName ++ '.' :: w.srv.imageExt)) =
        .ok (d ++ [req.ImageName ++ '.' :: w.srv.imageExt]) := by
      have hplen1 : byteLen (Join w1.srv.imageDir (req.ImageName ++ '.' :: w.srv.imageExt)) <
          PATH_MAX := by
        rw [hsrv1]; exact hplen
      unfold FS.resolve
      rw [if_neg hne, if_neg (fun h => hnuln (hnul.1 h)), if_neg (Nat.not_le.2 hplen1), hsplit,
        walk_append _ _ _ _ _ hwalk, walk_single,
        walkStep_name _ d _ rd hname.1 hname.2.2.1 hname.2.2.2 hld1 hrdir hsearch hlen, hln1]
    have hopen : os_Open w1.fs (Join w1.srv.imageDir (req.ImageName ++ '.' :: w.srv.imageExt)) =
        some (d ++ [req.ImageName ++ '.' :: w.srv.imageExt]) := by
      unfold os_Open
      rw [hresJ]
      simp only [hln1, hnr, if_true]
    simp only [infoOf, getCreationModificationDate, hopen, times_StatFile, hln1, hct]

/-! ## Reading an image -/

theorem nul_not_mem_path (dir n : Str) (h1 : nul ∉ dir) (h2 : nul ∉ n) :
    nul ∉ dir ++ '/' :: n := by
  intro h
  rcases List.mem_append.1 h with h | h
  · exact h1 h
  · rcases List.mem_cons.1 h with h | h
    · exact nul_ne_slash h
    · exact h2 h

/-- The lookup of a path under a directory path that resolves: the elements
of the rest are looked up from the directory. -/
theorem resolve_under (fs : FS) (dir n : Str) (d : Loc) (hres : fs.resolve dir = .ok d)
    (hz : nul ∉ n) (hlen : byteLen (dir ++ '/' :: n) < PATH_MAX) :
    fs.resolve (dir ++ '/' :: n) = walk fs d (splitSlash n) := by
  obtain ⟨hdir, hnul, hw, _⟩ := resolve_ok fs dir d hres
  have hne : dir ++ '/' :: n ≠ [] := by simp
  have hstart : fs.start (dir ++ '/' :: n) = fs.start dir := by
    simp [FS.start, isRooted_append dir _ hdir]
  unfold FS.resolve
  rw [if_neg hne, if_neg (nul_not_mem_path dir n hnul hz), if_neg (Nat.not_le.2 hlen), hstart,
    splitSlash_append_slash, walk_append fs _ _ _ _ hw]

/-- A read of a plain name, not too long, that is absent from a directory
the server may search fails with ENOENT. -/
theorem os_ReadFile_missing (fs : FS) (dir n : Str) (d : Loc) (nd : Node)
    (hres : fs.resolve dir = .ok d) (hl : fs.lookup d = some nd) (hd : nd.isDir = true)
    (hs : nd.searchable = true) (hn : PlainName n) (hz : nul ∉ n)
    (hlen : byteLen n ≤ NAME_MAX) (hplen : byteLen (dir ++ '/' :: n) < PATH_MAX)
    (hmiss : fs.lookup (d ++ [n]) = none) :
    os_ReadFile fs (dir ++ '/' :: n) = .error (.path "open".toList (dir ++ '/' :: n) .ENOENT) := by
  have hr : fs.resolve (dir ++ '/' :: n) = .error .ENOENT := by
    rw [resolve_under fs dir n d hres hz hplen, splitSlash_plain n hn.2.1, walk_single,
      walkStep_name fs d n nd hn.1 hn.2.2.1 hn.2.2.2 hl hd hs hlen, hmiss]
  unfold os_ReadFile
  rw [hr]

/-- A read of a path with a NUL byte fails with EINVAL. -/
theorem os_ReadFile_nul (fs : FS) (name : Str) (hz : nul ∈ name) :
    os_ReadFile fs name = .error (.path "open".toList name .EINVAL) := by
  have hne : name ≠ [] := by
    intro e
    rw [e] at hz
    cases hz
  have hr : fs.resolve name = .error .EINVAL := by
    unfold FS.resolve
    rw [if_neg hne, if_pos hz]
  unfold os_ReadFile
  rw [hr]

/-- A read of a plain name of more than `NAME_MAX` bytes in a directory the
server may search fails with ENAMETOOLONG, whether a file of that name could
exist or not. -/
theorem os_ReadFile_long (fs : FS) (dir n : Str) (d : Loc) (nd : Node)
    (hres : fs.resolve dir = .ok d) (hl : fs.lookup d = some nd) (hd : nd.isDir = true)
    (hs : nd.searchable = true) (hn : PlainName n) (hz : nul ∉ n)
    (hlong : NAME_MAX < byteLen n) :
    os_ReadFile fs (dir ++ '/' :: n) =
      .error (.path "open".toList (dir ++ '/' :: n) .ENAMETOOLONG) := by
  have hr : fs.resolve (dir ++ '/' :: n) = .error .ENAMETOOLONG := by
    by_cases hplen : byteLen (dir ++ '/' :: n) < PATH_MAX
    · rw [resolve_under fs dir n d hres hz hplen, splitSlash_plain n hn.2.1, walk_single,
        walkStep_dir fs d n nd hl hd, if_neg hn.1, if_neg (by simp [hs]), if_neg hn.2.2.1,
        if_neg hn.2.2.2, if_pos hlong]
    · obtain ⟨_, hnul, _, _⟩ := resolve_ok fs dir d hres
      have hne : dir ++ '/' :: n ≠ [] := by simp
      unfold FS.resolve
      rw [if_neg hne, if_neg (nul_not_mem_path dir n hnul hz), if_pos (Nat.not_lt.1 hplen)]
  unfold os_ReadFile
  rw [hr]

/-- A read of a path that runs through a regular file of a directory the
server may search fails with ENOTDIR. -/
theorem os_ReadFile_through_file (fs : FS) (dir a b : Str) (d : Loc) (nd f : Node)
    (hres : fs.resolve dir = .ok d) (hl : fs.lookup d = some nd) (hd : nd.isDir = true)
    (hs : nd.searchable = true) (ha : PlainName a) (hz : nul ∉ a ++ '/' :: b)
    (hlen : byteLen a ≤ NAME_MAX) (hplen : byteLen (dir ++ '/' :: (a ++ '/' :: b)) < PATH_MAX)
    (hf : fs.lookup (d ++ [a]) = some f) (hfile : f.isDir = false) :
    os_ReadFile fs (dir ++ '/' :: (a ++ '/' :: b)) =
      .error (.path "open".toList (dir ++ '/' :: (a ++ '/' :: b)) .ENOTDIR) := by
  have hstep : walk fs d [a] = .ok (d ++ [a]) := by
    rw [walk_single, walkStep_name fs d a nd ha.1 ha.2.2.1 ha.2.2.2 hl hd hs hlen, hf]
  have hrest : walk fs (d ++ [a]) (splitSlash b) = .error .ENOTDIR := by
    cases hsb : splitSlash b with
    | nil => exact absurd hsb (splitSlash_ne_nil b)
    | cons c cs =>
      simp only [walk]
      have : walkStep fs (d ++ [a]) c = .error .ENOTDIR := by
        unfold walkStep
        rw [hf]
        simp [hfile]
      rw [this]
  have hr : fs.resolve (dir ++ '/' :: (a ++ '/' :: b)) = .error .ENOTDIR := by
    rw [resolve_under fs dir _ d hres hz hplen, splitSlash_append_slash,
      splitSlash_plain a ha.2.1, walk_append fs _ _ _ _ hstep, hrest]
  unfold os_ReadFile
  rw [hr]

/-- A name of `n` letters `a` has `n` bytes. -/
theorem byteLen_replicate (n : Nat) : byteLen (List.replicate n 'a') = n := by
  induction n with
  | zero => rfl
  | succ k ih =>
    rw [List.replicate_succ]
    simp only [byteLen, ih]
    have : utf8Len 'a' = 1 := by decide
    omega

/-- A name of three or more letters `a` is a plain file name without a NUL
byte. -/
theorem plainName_replicate (n : Nat) (h : 2 < n) :
    PlainName (List.replicate n 'a') ∧ nul ∉ List.replicate n 'a' := by
  have hsl : ('/' : Char) ≠ 'a' := by decide
  have hnul : nul ≠ 'a' := by decide
  refine ⟨⟨?_, ?_, ?_, ?_⟩, ?_⟩
  · intro e
    have := congrArg List.length e
    simp at this
    omega
  · intro hm
    exact hsl (List.eq_of_mem_replicate hm)
  · intro e
    have := congrArg List.length e
    simp [dot] at this
    omega
  · intro e
    have := congrArg List.length e
    simp [dotdot] at this
    omega
  · intro hm
    exact hnul (List.eq_of_mem_replicate hm)

theorem GetImage_error (w : World) (ctx : Context) (req : GetImageRequest) (sem : Weighted)
    (err : OsError)
    (hacq : w.srv.getUploadImageSemaphore.Acquire ctx 1 = .ok sem)
    (hread : os_ReadFile w.fs (w.srv.imageDir ++ '/' :: req.ImageName) = .error err) :
    ∃ w1, GetImage w ctx req = .returned w1 (.error
      (if os_IsNotExist err = true then
        .status .NotFound ("Image ".toList ++ req.ImageName ++ " not found".toList)
      else .status .Internal ("Error reading image: ".toList ++ err.Error))) := by
  have hg := guarded_ok .getUploadImage w ctx (GetImageBody req) sem hacq
    (fun w0 => (GetImageBody_ok req w0).1)
  have hread2 : os_ReadFile w.fs (sprintfSlash w.srv.imageDir req.ImageName) = .error err := hread
  have hb : (GetImageBody req
      ((w.setGate .getUploadImage sem).emit (.acquire .getUploadImage))).2 =
      .error (if os_IsNotExist err = true then
        .status .NotFound ("Image ".toList ++ req.ImageName ++ " not found".toList)
      else .status .Internal ("Error reading image: ".toList ++ err.Error)) := by
    simp only [GetImageBody, readImage, World.setGate, World.emit, hread2]
    cases os_IsNotExist err <;> simp
  unfold GetImage
  rw [hg, hb]
  exact ⟨_, rfl⟩

/-! ## The admission bound under concurrent requests -/

theorem countP_set_add {α : Type} (p : α → Bool) (a : α) :
    ∀ (l : List α) (i : Nat) (t : α), l[i]? = some t →
      (l.set i a).countP p + (if p t then 1 else 0) = l.countP p + (if p a then 1 else 0) := by
  intro l
  induction l with
  | nil => intro i t h; simp at h
  | cons x xs ih =>
    intro i t h
    cases i with
    | zero =>
      simp only [List.getElem?_cons_zero, Option.some.injEq] at h
      subst h
      simp only [List.set_cons_zero, List.countP_cons]
      omega
    | succ j =>
      simp only [List.getElem?_cons_succ] at h
      have := ih j t h
      simp only [List.set_cons_succ, List.countP_cons]
      omega

theorem countP_pos_of_getElem {α : Type} (p : α → Bool) :
    ∀ (l : List α) (i : Nat) (t : α), l[i]? = some t → p t = true → 1 ≤ l.countP p := by
  intro l i t h hp
  have hm : t ∈ l := List.mem_iff_getElem?.2 ⟨i, h⟩
  exact List.countP_pos_iff.2 ⟨t, hm, hp⟩

theorem countP_two {α : Type} (p : α → Bool) :
    ∀ (l : List α) (i j : Nat) (a b : α), i < j → l[i]? = some a → l[j]? = some b →
      p a = true → p b = true → 2 ≤ l.countP p := by
  intro l
  induction l with
  | nil => intro i j a b _ h; simp at h
  | cons x xs ih =>
    intro i j a b hij hi hj pa pb
    cases j with
    | zero => omega
    | succ j1 =>
      simp only [List.getElem?_cons_succ] at hj
      cases i with
      | zero =>
        simp only [List.getElem?_cons_zero, Option.some.injEq] at hi
        subst hi
        have := countP_pos_of_getElem p xs j1 b hj pb
        simp only [List.countP_cons, pa, if_true]
        omega
      | succ i1 =>
        simp only [List.getElem?_cons_succ] at hi
        have := ih i1 j1 a b (by omega) hi hj pa pb
        simp only [List.countP_cons]
        omega

theorem Request_body_srv (r : Request) (w : World) : (r.body w).1.srv = w.srv := by
  cases r with
  | upload req => exact (UploadImageBody_ok req w).1
  | list => exact (GetImageListBody_ok w).1
  | get req => exact (GetImageBody_ok req w).1

theorem gate_setGate_ne (w : World) (g g1 : Gate) (s : Weighted) (h : g ≠ g1) :
    (w.setGate g1 s).gate g = w.gate g := by
  cases g <;> cases g1 <;> first | rfl | exact absurd rfl h

theorem holds_of_phase (g : Gate) (t : Task) :
    t.holds g = (decide (t.req.gate = g) &&
      (match t.phase with
       | .holding => true
       | .finishing _ => true
       | _ => false)) := rfl

/-- What one step of a handler does to the gates: the capacities stay, and
at each gate the units in use move with the request's holding of a unit. -/
theorem stepTask_gates (w w1 : World) (t t1 : Task) (h : stepTask w t = some (w1, t1))
    (hpos : t.holds t.req.gate = true → 1 ≤ (w.gate t.req.gate).cur) (g : Gate) :
    (w1.gate g).size = (w.gate g).size ∧
      (w1.gate g).cur + (if t.holds g = true then 1 else 0) =
        (w.gate g).cur + (if t1.holds g = true then 1 else 0) ∧
      ((w.gate g).cur ≤ (w.gate g).size → (w1.gate g).cur ≤ (w1.gate g).size) ∧
      t1.phase ≠ .panicked := by
  unfold stepTask at h
  cases hp : t.phase with
  | waiting =>
    rw [hp] at h
    simp only at h
    cases hacq : (w.gate t.req.gate).Acquire t.ctx 1 with
    | blocked => rw [hacq] at h; cases h
    | err e =>
      rw [hacq] at h
      simp only [Option.some.injEq, Prod.mk.injEq] at h
      obtain ⟨h1, h2⟩ := h
      subst h1; subst h2
      simp [holds_of_phase, hp]
    | ok sem =>
      rw [hacq] at h
      simp only [Option.some.injEq, Prod.mk.injEq] at h
      obtain ⟨h1, h2⟩ := h
      subst h1; subst h2
      obtain ⟨hs, hle⟩ := Acquire_ok_cur _ _ _ _ hacq
      by_cases hg : g = t.req.gate
      · subst hg
        rw [gate_emit, gate_setGate, hs]
        simp [holds_of_phase, hp]
        omega
      · rw [gate_emit, gate_setGate_ne _ _ _ _ hg]
        have hg2 : ¬ t.req.gate = g := fun e => hg e.symm
        simp [holds_of_phase, hp, hg2]
  | holding =>
    rw [hp] at h
    simp only [Option.some.injEq, Prod.mk.injEq] at h
    obtain ⟨h1, h2⟩ := h
    subst h1; subst h2
    rw [gate_of_srv _ w g (Request_body_srv t.req w)]
    simp [holds_of_phase, hp]
  | finishing r =>
    rw [hp] at h
    simp only at h
    have hh : t.holds t.req.gate = true := by simp [holds_of_phase, hp]
    have hc := hpos hh
    cases hrel : (w.gate t.req.gate).Release 1 with
    | none =>
      simp only [Weighted.Release] at hrel
      split at hrel
      · omega
      · cases hrel
    | some sem =>
      rw [hrel] at h
      simp only [Option.some.injEq, Prod.mk.injEq] at h
      obtain ⟨h1, h2⟩ := h
      subst h1; subst h2
      simp only [Weighted.Release] at hrel
      split at hrel
      · cases hrel
      · injection hrel with hrel
        by_cases hg : g = t.req.gate
        · subst hg
          rw [gate_emit, gate_setGate, ← hrel]
          simp [holds_of_phase, hp]
          omega
        · rw [gate_emit, gate_setGate_ne _ _ _ _ hg]
          have hg2 : ¬ t.req.gate = g := fun e => hg e.symm
          simp [holds_of_phase, hp, hg2]
  | returned r => rw [hp] at h; cases h
  | panicked => rw [hp] at h; cases h

theorem step_inv (n m : Nat) (s s1 : Sys) (a : Action) (hinv : GateInv n m s)
    (h : step s a = some s1) : GateInv n m s1 := by
  obtain ⟨hn, hm, hg⟩ := hinv
  cases a with
  | arrive req ctx =>
    simp only [step, Option.some.injEq] at h
    subst h
    refine ⟨hn, hm, fun g => ?_⟩
    have := hg g
    simp only [Sys.holders, List.countP_append] at this ⊢
    simpa [holds_of_phase] using this
  | cancel i e =>
    simp only [step] at h
    cases ht : s.tasks[i]? with
    | none => rw [ht] at h; cases h
    | some t =>
      rw [ht] at h
      simp only at h
      have key : ∀ s2 : Sys, s2 = { s with tasks := s.tasks.set i { t with ctx := .done e } } →
          GateInv n m s2 := by
        intro s2 hs2
        subst hs2
        refine ⟨hn, hm, fun g => ?_⟩
        have hc := countP_set_add (Task.holds g) { t with ctx := .done e } s.tasks i t ht
        have hsame : Task.holds g { t with ctx := .done e } = Task.holds g t := rfl
        rw [hsame] at hc
        have := hg g
        simp only [Sys.holders] at this ⊢
        exact ⟨by omega, this.2⟩
      cases hctx : t.ctx with
      | done e1 => rw [hctx] at h; cases h
      | background =>
        rw [hctx] at h
        injection h with h
        exact key s1 h.symm
      | doneLater e1 =>
        rw [hctx] at h
        injection h with h
        exact key s1 h.symm
  | run i =>
    simp only [step] at h
    cases ht : s.tasks[i]? with
    | none => rw [ht] at h; cases h
    | some t =>
      rw [ht] at h
      simp only at h
      cases hst : stepTask s.w t with
      | none => rw [hst] at h; cases h
      | some res =>
        obtain ⟨w1, t1⟩ := res
        rw [hst] at h
        injection h with h
        subst h
        have hpos : t.holds t.req.gate = true → 1 ≤ (s.w.gate t.req.gate).cur := by
          intro hh
          rw [(hg t.req.gate).1]
          exact countP_pos_of_getElem _ s.tasks i t ht hh
        have hsz := fun g => (stepTask_gates s.w w1 t t1 hst hpos g).1
        refine ⟨?_, ?_, fun g => ?_⟩
        · rw [← hn]; exact hsz .getUploadImage
        · rw [← hm]; exact hsz .getImageList
        · obtain ⟨_, h2, h3, _⟩ := stepTask_gates s.w w1 t t1 hst hpos g
          have hc := countP_set_add (Task.holds g) t1 s.tasks i t ht
          have := hg g
          simp only [Sys.holders] at this ⊢
          refine ⟨?_, h3 this.2⟩
          omega

theorem runSchedule_inv (n m : Nat) (sched : List Action) :
    ∀ s s1, GateInv n m s → runSchedule s sched = some s1 → GateInv n m s1 := by
  induction sched with
  | nil =>
    intro s s1 hinv h
    simp only [runSchedule, Option.some.injEq] at h
    subst h
    exact hinv
  | cons a rest ih =>
    intro s s1 hinv h
    simp only [runSchedule] at h
    cases hs : step s a with
    | none => rw [hs] at h; cases h
    | some s2 =>
      rw [hs] at h
      exact ih s2 s1 (step_inv n m s s2 a hinv hs) h

theorem init_inv (n m : Nat) (dir ext : Str) (fs : FS) : GateInv n m (Sys.init n m dir ext fs) := by
  refine ⟨rfl, rfl, fun g => ?_⟩
  cases g <;> simp [Sys.init, Sys.holders, World.gate, NewImageServiceServer, NewWeighted]

theorem step_run_quiet (s s1 : Sys) (i : Nat) (t : Task) (ht : s.tasks[i]? = some t)
    (h : step s (.run i) = some s1) (hno : t.holds t.req.gate = false) :
    s1.w.fs = s.w.fs ∧ ∃ ev, s1.w.trace = s.w.trace ++ ev ∧ ∀ e ∈ ev, e.isGate = true := by
  simp only [step, ht] at h
  cases hst : stepTask s.w t with
  | none => rw [hst] at h; cases h
  | some res =>
    obtain ⟨w1, t1⟩ := res
    rw [hst] at h
    injection h with h
    subst h
    simp only
    unfold stepTask at hst
    cases hp : t.phase with
    | waiting =>
      rw [hp] at hst
      simp only at hst
      cases hacq : (s.w.gate t.req.gate).Acquire t.ctx 1 with
      | blocked => rw [hacq] at hst; cases hst
      | err e =>
        rw [hacq] at hst
        simp only [Option.some.injEq, Prod.mk.injEq] at hst
        rw [← hst.1]
        exact ⟨rfl, [], by simp, by simp⟩
      | ok sem =>
        rw [hacq] at hst
        simp only [Option.some.injEq, Prod.mk.injEq] at hst
        rw [← hst.1]
        refine ⟨by cases t.req.gate <;> rfl, [.acquire t.req.gate], ?_, ?_⟩
        · cases t.req.gate <;> rfl
        · intro e he
          simp at he
          subst he
          rfl
    | holding => simp [holds_of_phase, hp] at hno
    | finishing r => simp [holds_of_phase, hp] at hno
    | returned r => rw [hp] at hst; cases hst
    | panicked => rw [hp] at hst; cases hst

/-! ## The steps of one request are the handler -/

theorem steps_are_guarded {α : Type} (req : Request) (w : World) (ctx : Context)
    (body : World → World × Result α) (wrap : Result α → Reply) (sem : Weighted)
    (hbody : ∀ w0, req.body w0 = ((body w0).1, wrap (body w0).2))
    (hsrv : ∀ w0, (body w0).1.srv = w0.srv)
    (hacq : (w.gate req.gate).Acquire ctx 1 = .ok sem) :
    ∃ w1 r, guarded req.gate w ctx body = .returned w1 r ∧
      runSchedule { w := w, tasks := [] } [.arrive req ctx, .run 0, .run 0, .run 0] =
        some { w := w1, tasks := [{ req := req, ctx := ctx, phase := .returned (wrap r) }] } := by
  have hg := guarded_ok req.gate w ctx body sem hacq hsrv
  have hrel := Acquire_ok_Release _ _ _ hacq
  have hgate : (body ((w.setGate req.gate sem).emit (.acquire req.gate))).1.gate req.gate =
      sem := by
    rw [gate_of_srv _ _ _ (hsrv _), gate_emit, gate_setGate]
  refine ⟨_, _, hg, ?_⟩
  simp only [runSchedule, step, stepTask, List.nil_append, List.getElem?_cons_zero,
    hacq, List.set_cons_zero, hbody, hgate, hrel]

/-- The three steps of a request in the interleaving model, run without
interruption, do what the handler does. -/
theorem steps_are_handlers (w : World) (ctx : Context) (sem : Weighted) :
    (∀ req, w.srv.getUploadImageSemaphore.Acquire ctx 1 = .ok sem →
      ∃ w1 r, UploadImage w ctx req = .returned w1 r ∧
        runSchedule { w := w, tasks := [] }
            [.arrive (.upload req) ctx, .run 0, .run 0, .run 0] =
          some { w := w1, tasks := [{ req := .upload req, ctx := ctx,
                                      phase := .returned (.upload r) }] }) ∧
    (w.srv.getImageListSemaphore.Acquire ctx 1 = .ok sem →
      ∃ w1 r, GetImageList w ctx = .returned w1 r ∧
        runSchedule { w := w, tasks := [] } [.arrive .list ctx, .run 0, .run 0, .run 0] =
          some { w := w1, tasks := [{ req := .list, ctx := ctx,
                                      phase := .returned (.list r) }] }) ∧
    (∀ req, w.srv.getUploadImageSemaphore.Acquire ctx 1 = .ok sem →
      ∃ w1 r, GetImage w ctx req = .returned w1 r ∧
        runSchedule { w := w, tasks := [] }
            [.arrive (.get req) ctx, .run 0, .run 0, .run 0] =
          some { w := w1, tasks := [{ req := .get req, ctx := ctx,
                                      phase := .returned (.get r) }] }) :=
  ⟨fun req h => steps_are_guarded (.upload req) w ctx (UploadImageBody req) .upload sem
      (fun _ => rfl) (fun w0 => (UploadImageBody_ok req w0).1) h,
   fun h => steps_are_guarded .list w ctx GetImageListBody .list sem
      (fun _ => rfl) (fun w0 => (GetImageListBody_ok w0).1) h,
   fun req h => steps_are_guarded (.get req) w ctx (GetImageBody req) .get sem
      (fun _ => rfl) (fun w0 => (GetImageBody_ok req w0).1) h⟩

/-- The acquisition step of a request takes exactly one unit of the gate of
its class and leaves the other gate as it is. -/
theorem stepTask_acquire (w w1 : World) (t t1 : Task) (hp : t.phase = .waiting)
    (h : stepTask w t = some (w1, t1)) (h1 : t1.phase = .holding) :
    (w1.gate t.req.gate).cur = (w.gate t.req.gate).cur + 1 ∧
      ∀ g, g ≠ t.req.gate → w1.gate g = w.gate g := by
  unfold stepTask at h
  rw [hp] at h
  simp only at h
  cases hacq : (w.gate t.req.gate).Acquire t.ctx 1 with
  | blocked => rw [hacq] at h; cases h
  | err e =>
    rw [hacq] at h
    simp only [Option.some.injEq, Prod.mk.injEq] at h
    rw [← h.2] at h1
    cases h1
  | ok sem =>
    rw [hacq] at h
    simp only [Option.some.injEq, Prod.mk.injEq] at h
    obtain ⟨hs, _⟩ := Acquire_ok_cur _ _ _ _ hacq
    rw [← h.1]
    refine ⟨?_, fun g hg => ?_⟩
    · rw [gate_emit, gate_setGate, hs]
    · rw [gate_emit, gate_setGate_ne _ _ _ _ hg]

/-! ## C1: the round trip -/

/-- C1 at the failing input: on the server of `main.go` over a store with an
empty image directory, the upload of bytes FF D8 under the identifier
`a/../b` succeeds and returns the file name `a/../b.jpg`; `saveImageToDisk`
has written the file `media/b.jpg`, the path `filepath.Join` cleans to.
`GetImage` of the returned name does not return the payload: `readImage`
reads the path `media//a/../b.jpg` that `fmt.Sprintf` builds, `media/a` does
not exist, and the call fails with NotFound. A read under the path that
`filepath.Join` builds, as `saveImageToDisk` and
`getCreationModificationDate` do, returns the payload. -/
theorem roundtrip_fails_on_dotdot :
    UploadImage exWorld .background ⟨"a/../b".toList, [0xFF, 0xD8]⟩ =
        .returned exAfterDotDot (.ok { ImageName := "a/../b.jpg".toList }) ∧
      Join "media/".toList "a/../b.jpg".toList = "media/b.jpg".toList ∧
      exAfterDotDot.fs.lookup ["media".toList, "b.jpg".toList] =
        some (exFS.newFile [0xFF, 0xD8]) ∧
      (GetImage exAfterDotDot .background ⟨"a/../b.jpg".toList⟩).result? =
        some (.error (.status .NotFound "Image a/../b.jpg not found".toList)) ∧
      os_ReadFile exAfterDotDot.fs (Join "media/".toList "a/../b.jpg".toList) =
        .ok [0xFF, 0xD8] := by
  decide

/-! ## C2: a missing image -/

/-- C2, amended: for every identifier, `GetImage` fails with NotFound and
the message `Image <identifier> not found` when the read of the path
`imageDir + "/" + identifier` fails with the not-exist error of the
operating system (ENOENT), and with Internal when the read fails with any
other error. For an image directory that exists and that the server may
search: NotFound is the answer for every identifier that is a plain file
name of at most `NAME_MAX` (255) bytes without a NUL byte and is absent from
the directory, the whole path being shorter than `PATH_MAX` (4096) bytes;
Internal, with the text of the error, is the answer although no file exists
at the path for a plain file name without a NUL byte of more than `NAME_MAX`
bytes (ENAMETOOLONG) and, the whole path being shorter than `PATH_MAX`
bytes, for an identifier without a NUL byte that runs through a regular file
of the directory (ENOTDIR). For an identifier with a NUL byte the answer is
Internal (EINVAL), whatever the store holds. -/
theorem GetImage_not_found (w : World) (ctx : Context) (req : GetImageRequest) (sem : Weighted)
    (hacq : w.srv.getUploadImageSemaphore.Acquire ctx 1 = .ok sem) :
    (∀ err, os_ReadFile w.fs (w.srv.imageDir ++ '/' :: req.ImageName) = .error err →
      os_IsNotExist err = true →
      ∃ w1, GetImage w ctx req = .returned w1 (.error (.status .NotFound
        ("Image ".toList ++ req.ImageName ++ " not found".toList)))) ∧
    (∀ err, os_ReadFile w.fs (w.srv.imageDir ++ '/' :: req.ImageName) = .error err →
      os_IsNotExist err = false →
      ∃ w1, GetImage w ctx req = .returned w1 (.error (.status .Internal
        ("Error reading image: ".toList ++ err.Error)))) ∧
    (∀ d nd, w.fs.resolve w.srv.imageDir = .ok d → w.fs.lookup d = some nd → nd.isDir = true →
      nd.searchable = true → PlainName req.ImageName → nul ∉ req.ImageName →
      byteLen req.ImageName ≤ NAME_MAX →
      byteLen (w.srv.imageDir ++ '/' :: req.ImageName) < PATH_MAX →
      w.fs.lookup (d ++ [req.ImageName]) = none →
      ∃ w1, GetImage w ctx req = .returned w1 (.error (.status .NotFound
        ("Image ".toList ++ req.ImageName ++ " not found".toList)))) ∧
    (nul ∈ req.ImageName →
      ∃ w1, GetImage w ctx req = .returned w1 (.error (.status .Internal
        ("Error reading image: open ".toList ++ (w.srv.imageDir ++ '/' :: req.ImageName) ++
          ": invalid argument".toList)))) ∧
    (∀ d nd, w.fs.resolve w.srv.imageDir = .ok d → w.fs.lookup d = some nd → nd.isDir = true →
      nd.searchable = true → PlainName req.ImageName → nul ∉ req.ImageName →
      NAME_MAX < byteLen req.ImageName →
      ∃ w1, GetImage w ctx req = .returned w1 (.error (.status .Internal
        ("Error reading image: open ".toList ++ (w.srv.imageDir ++ '/' :: req.ImageName) ++
          ": file name too long".toList)))) ∧
    (∀ d nd a b f, w.fs.resolve w.srv.imageDir = .ok d → w.fs.lookup d = some nd →
      nd.isDir = true → nd.searchable = true → req.ImageName = a ++ '/' :: b →
      PlainName a → nul ∉ req.ImageName → byteLen a ≤ NAME_MAX →
      byteLen (w.srv.imageDir ++ '/' :: req.ImageName) < PATH_MAX →
      w.fs.lookup (d ++ [a]) = some f → f.isDir = false →
      ∃ w1, GetImage w ctx req = .returned w1 (.error (.status .Internal
        ("Error reading image: open ".toList ++ (w.srv.imageDir ++ '/' :: req.ImageName) ++
          ": not a directory".toList)))) := by
  have hmsg : ∀ (name : Str) (e : Errno),
      "Error reading image: ".toList ++ (OsError.path "open".toList name e).Error =
        "Error reading image: open ".toList ++ name ++ ':' :: ' ' :: e.Error := by
    intro name e
    simp [OsError.Error]
  refine ⟨?_, ?_, ?_, ?_, ?_, ?_⟩
  · intro err hread hne
    obtain ⟨w1, h⟩ := GetImage_error w ctx req sem err hacq hread
    rw [if_pos hne] at h
    exact ⟨w1, h⟩
  · intro err hread hne
    obtain ⟨w1, h⟩ := GetImage_error w ctx req sem err hacq hread
    rw [if_neg (by simp [hne])] at h
    exact ⟨w1, h⟩
  · intro d nd hres hl hd hs hn hz hlen hplen hmiss
    obtain ⟨w1, h⟩ := GetImage_error w ctx req sem _ hacq
      (os_ReadFile_missing w.fs _ _ d nd hres hl hd hs hn hz hlen hplen hmiss)
    exact ⟨w1, h⟩
  · intro hz
    obtain ⟨w1, h⟩ := GetImage_error w ctx req sem _ hacq
      (os_ReadFile_nul w.fs (w.srv.imageDir ++ '/' :: req.ImageName)
        (List.mem_append_right _ (List.mem_cons_of_mem _ hz)))
    rw [if_neg (by simp [os_IsNotExist]), hmsg] at h
    exact ⟨w1, h⟩
  · intro d nd hres hl hd hs hn hz hlong
    obtain ⟨w1, h⟩ := GetImage_error w ctx req sem _ hacq
      (os_ReadFile_long w.fs _ _ d nd hres hl hd hs hn hz hlong)
    rw [if_neg (by simp [os_IsNotExist]), hmsg] at h
    exact ⟨w1, h⟩
  · intro d nd a b f hres hl hd hs hab ha hz hlen hplen hf hfile
    rw [hab] at hz hplen
    have hread := os_ReadFile_through_file w.fs _ a b d nd f hres hl hd hs ha hz hlen hplen
      hf hfile
    rw [← hab] at hread
    obtain ⟨w1, h⟩ := GetImage_error w ctx req sem _ hacq hread
    rw [if_neg (by simp [os_IsNotExist]), hmsg] at h
    exact ⟨w1, h⟩

/-- The witness of C2: on the empty store the name `missing` is NotFound,
with the identifier in the message, and a name of 256 letters, of which no
file exists either, is Internal; on the store with the image `cat.jpg` the
identifier `cat.jpg/x` is Internal. -/
theorem GetImage_not_found_witness :
    (∃ w1, GetImage exWorld .background ⟨"missing".toList⟩ = .returned w1
      (.error (.status .NotFound "Image missing not found".toList))) ∧
    (∃ w1, GetImage exWorld .background ⟨List.replicate 256 'a'⟩ = .returned w1
      (.error (.status .Internal
        ("Error reading image: open ".toList ++ ("media/".toList ++ '/' :: List.replicate 256 'a') ++
          ": file name too long".toList)))) ∧
    (∃ w1, GetImage exWorld2 .background ⟨"cat.jpg/x".toList⟩ = .returned w1
      (.error (.status .Internal
        "Error reading image: open media//cat.jpg/x: not a directory".toList))) :=
  ⟨(GetImage_not_found exWorld .background ⟨"missing".toList⟩ ⟨10, 1⟩ (by decide)).2.2.1
      ["media".toList] exDir (by decide) (by decide) (by decide) (by decide)
      ⟨by decide, by decide, by decide, by decide⟩ (by decide) (by decide) (by decide)
      (by decide),
    (GetImage_not_found exWorld .background ⟨List.replicate 256 'a'⟩ ⟨10, 1⟩
      (by decide)).2.2.2.2.1
      ["media".toList] exDir (by decide) (by decide) (by decide) (by decide)
      (plainName_replicate 256 (by decide)).1 (plainName_replicate 256 (by decide)).2
      (by rw [byteLen_replicate]; decide),
    (GetImage_not_found exWorld2 .background ⟨"cat.jpg/x".toList⟩ ⟨10, 1⟩
      (by decide)).2.2.2.2.2
      ["media".toList] exDir "cat.jpg".toList "x".toList (exFile [0xFF, 0xD8] true)
      (by decide) (by decide) (by decide) (by decide) (by decide)
      ⟨by decide, by decide, by decide, by decide⟩ (by decide) (by decide) (by decide)
      (by decide) (by decide)⟩

/-- The counterexample to C2 as stated: the image directory holds the
regular file `cat.jpg`; the path `media//cat.jpg/x` that `GetImage` reads for
the identifier `cat.jpg/x` names nothing (its lookup fails), the read fails
with ENOTDIR, which is not the not-exist error, and `GetImage` answers
Internal, not NotFound. -/
theorem GetImage_missing_is_internal :
    exWorld2.fs.resolve "media//cat.jpg/x".toList = .error .ENOTDIR ∧
      os_ReadFile exWorld2.fs "media//cat.jpg/x".toList =
        .error (.path "open".toList "media//cat.jpg/x".toList .ENOTDIR) ∧
      (GetImage exWorld2 .background ⟨"cat.jpg/x".toList⟩).result? =
        some (.error (.status .Internal
          "Error reading image: open media//cat.jpg/x: not a directory".toList)) := by
  decide

/-! ## C3: the stored file name -/

/-- C3: when the gate admits the request and the storage write succeeds,
`UploadImage` returns exactly the identifier, a dot and the configured
extension as the stored file name, with no change to the identifier; the
store it leaves is the one the write produced. -/
theorem UploadImage_returns_file_name (w : World) (ctx : Context) (req : UploadImageRequest)
    (sem : Weighted) (fs1 : FS)
    (hacq : w.srv.getUploadImageSemaphore.Acquire ctx 1 = .ok sem)
    (hwrite : os_WriteFile w.fs
      (Join w.srv.imageDir (req.ImageName ++ '.' :: w.srv.imageExt)) req.ImageData = .ok fs1) :
    ∃ w1, UploadImage w ctx req =
        .returned w1 (.ok { ImageName := req.ImageName ++ '.' :: w.srv.imageExt }) ∧
      w1.fs = fs1 := by
  have hg := guarded_ok .getUploadImage w ctx (UploadImageBody req) sem hacq
    (fun w0 => (UploadImageBody_ok req w0).1)
  have hb := UploadImageBody_written req
    ((w.setGate .getUploadImage sem).emit (.acquire .getUploadImage)) fs1 hwrite
  unfold UploadImage
  rw [hg, hb.1]
  refine ⟨_, rfl, ?_⟩
  rw [← hb.2]
  rfl

/-- The witness of C3: identifier `cat`, extension `jpg`, bytes FF D8 on the
empty store: the stored file name is `cat.jpg`. -/
theorem UploadImage_returns_file_name_witness :
    ∃ w1, UploadImage exWorld .background ⟨"cat".toList, [0xFF, 0xD8]⟩ =
        .returned w1 (.ok { ImageName := "cat.jpg".toList }) ∧
      w1.fs = exFS.insert ["media".toList, "cat.jpg".toList] (exFS.newFile [0xFF, 0xD8]) :=
  UploadImage_returns_file_name exWorld .background ⟨"cat".toList, [0xFF, 0xD8]⟩
    ⟨10, 1⟩ _ (by decide) (by decide)

/-! ## C4: the listed names -/

/-- C4: when the gate admits the request and the enumeration of the root
succeeds, `GetImageList` returns, and the names it returns are exactly the
names of the non-directory entries of the enumeration, in its order, each
once and whatever its extension or origin; no directory is listed, and for
an empty root the result is the empty sequence, not an error. In terms of
the store: a name is returned exactly when the root directory has a node of
that name directly under it that is not a directory. -/
theorem GetImageList_names (w : World) (ctx : Context) (sem : Weighted)
    (files : List DirEntry)
    (hacq : w.srv.getImageListSemaphore.Acquire ctx 1 = .ok sem)
    (hdir : os_ReadDir w.fs w.srv.imageDir = .ok files) :
    ∃ w1 infos, GetImageList w ctx = .returned w1 (.ok { ImageInfo := infos }) ∧
      infos.map (fun i => i.ImageName) =
        (files.filter (fun f => !f.IsDir)).map (fun f => f.Name) ∧
      (files = [] → infos = []) ∧
      ∀ d, w.fs.resolve w.srv.imageDir = .ok d →
        ∀ nm, nm ∈ infos.map (fun i => i.ImageName) ↔
          ∃ nd, w.fs.lookup (d ++ [nm]) = some nd ∧ nd.isDir = false := by
  obtain ⟨w1, h, _⟩ := GetImageList_listing w ctx sem files hacq hdir
  have hnames : ((files.filter (fun f => !f.IsDir)).map (infoOf w)).map (fun i => i.ImageName) =
      (files.filter (fun f => !f.IsDir)).map (fun f => f.Name) := by
    simp [List.map_map, Function.comp_def, infoOf]
  refine ⟨w1, _, h, hnames, ?_, ?_⟩
  · intro he
    subst he
    rfl
  · intro d hd nm
    obtain ⟨d1, _, hres, _, _, _, hfiles⟩ := os_ReadDir_ok w.fs _ files hdir
    rw [hd] at hres
    injection hres with hres
    subst hres
    rw [hnames, List.mem_map]
    constructor
    · rintro ⟨e, he, hnm⟩
      rw [List.mem_filter, hfiles, mem_entries] at he
      obtain ⟨⟨nd, hl, hisd⟩, hnd⟩ := he
      subst hnm
      refine ⟨nd, hl, ?_⟩
      rw [← hisd]
      simpa using hnd
    · rintro ⟨nd, hl, hnd⟩
      refine ⟨⟨nm, false⟩, ?_, rfl⟩
      rw [List.mem_filter, hfiles, mem_entries]
      exact ⟨⟨nd, hl, hnd.symm⟩, rfl⟩

/-- The witness of C4: the root holds an image, a file of another extension
that no upload made, and a directory; the two files are listed, in order. -/
theorem GetImageList_names_witness :
    ∃ w1 infos, GetImageList exWorld2 .background = .returned w1 (.ok { ImageInfo := infos }) ∧
      infos.map (fun i => i.ImageName) = ["cat.jpg".toList, "locked.png".toList] := by
  obtain ⟨w1, infos, h1, h2, _⟩ := GetImageList_names exWorld2 .background ⟨100, 1⟩
    [{ Name := "cat.jpg".toList, IsDir := false },
     { Name := "locked.png".toList, IsDir := false },
     { Name := "sub".toList, IsDir := true }] (by decide) (by decide)
  exact ⟨w1, infos, h1, h2⟩

/-! ## C5: entries without time stamps -/

/-- C5: a failure to resolve the time stamps of an entry (the file cannot be
opened, so that `times.StatFile` fails) neither fails `GetImageList` nor
drops the entry: the call returns one image per non-directory entry, each
computed from that entry alone, and an entry whose time stamps are not
resolved is returned with its name and both dates empty. -/
theorem GetImageList_tolerates_stat_failure (w : World) (ctx : Context) (sem : Weighted)
    (files : List DirEntry)
    (hacq : w.srv.getImageListSemaphore.Acquire ctx 1 = .ok sem)
    (hdir : os_ReadDir w.fs w.srv.imageDir = .ok files) :
    ∃ w1, GetImageList w ctx =
        .returned w1 (.ok { ImageInfo := (files.filter (fun f => !f.IsDir)).map (infoOf w) }) ∧
      ∀ f err,
        times_StatFile w.fs (os_Open w.fs (Join w.srv.imageDir f.Name)) = .error err →
        infoOf w f = { ImageName := f.Name, CreationDate := [], ModificationDate := [] } := by
  obtain ⟨w1, h, _⟩ := GetImageList_listing w ctx sem files hacq hdir
  refine ⟨w1, h, ?_⟩
  intro f err herr
  simp [infoOf, getCreationModificationDate, herr]

/-- The witness of C5: the file `locked.png` cannot be opened; it is listed
with empty dates next to `cat.jpg`, which keeps its dates. -/
theorem GetImageList_tolerates_stat_failure_witness :
    (∃ w1, GetImageList exWorld2 .background =
        .returned w1 (.ok { ImageInfo :=
          [{ ImageName := "cat.jpg".toList,
             CreationDate := "2024-03-07 09:05:00".toList,
             ModificationDate := "2024-03-07 09:05:00".toList },
           { ImageName := "locked.png".toList, CreationDate := [], ModificationDate := [] }] })) ∧
      times_StatFile exFS2 (os_Open exFS2 (Join "media/".toList "locked.png".toList)) =
        .error .invalid := by
  obtain ⟨w1, h, _⟩ := GetImageList_tolerates_stat_failure exWorld2 .background ⟨100, 1⟩
    [{ Name := "cat.jpg".toList, IsDir := false },
     { Name := "locked.png".toList, IsDir := false },
     { Name := "sub".toList, IsDir := true }] (by decide) (by decide)
  exact ⟨⟨w1, h⟩, by decide⟩

/-! ## C6: release on every path -/

/-- C6: for each of the three handlers, once the acquisition has succeeded
the call returns, whatever the storage operation did; the unit is released
exactly once, as the last effect, and nothing else touches a gate, so both
gates (the whole server value) are after the call what they were before. -/
theorem handlers_release_once (w : World) (ctx : Context) :
    (∀ req sem, w.srv.getUploadImageSemaphore.Acquire ctx 1 = .ok sem →
      ∃ w1 r mid, UploadImage w ctx req = .returned w1 r ∧ w1.srv = w.srv ∧
        w1.trace = w.trace ++ .acquire .getUploadImage :: mid ++ [.release .getUploadImage] ∧
        ∀ e ∈ mid, e.isGate = false) ∧
    (∀ sem, w.srv.getImageListSemaphore.Acquire ctx 1 = .ok sem →
      ∃ w1 r mid, GetImageList w ctx = .returned w1 r ∧ w1.srv = w.srv ∧
        w1.trace = w.trace ++ .acquire .getImageList :: mid ++ [.release .getImageList] ∧
        ∀ e ∈ mid, e.isGate = false) ∧
    (∀ req sem, w.srv.getUploadImageSemaphore.Acquire ctx 1 = .ok sem →
      ∃ w1 r mid, GetImage w ctx req = .returned w1 r ∧ w1.srv = w.srv ∧
        w1.trace = w.trace ++ .acquire .getUploadImage :: mid ++ [.release .getUploadImage] ∧
        ∀ e ∈ mid, e.isGate = false) :=
  ⟨fun req sem h => guarded_released .getUploadImage w ctx _ sem h (UploadImageBody_ok req),
   fun sem h => guarded_released .getImageList w ctx _ sem h GetImageListBody_ok,
   fun req sem h => guarded_released .getUploadImage w ctx _ sem h (GetImageBody_ok req)⟩

/-- The witness of C6: a read of a missing image on the empty store fails
with NotFound and still releases its unit. -/
theorem handlers_release_once_witness :
    ∃ w1 r mid, GetImage exWorld .background ⟨"missing".toList⟩ = .returned w1 r ∧
      w1.srv = exWorld.srv ∧
      w1.trace = exWorld.trace ++ .acquire .getUploadImage :: mid ++ [.release .getUploadImage] ∧
      ∀ e ∈ mid, e.isGate = false :=
  (handlers_release_once exWorld .background).2.2 ⟨"missing".toList⟩ ⟨10, 1⟩ (by decide)

/-! ## C7: cancelled acquisition -/

/-- C7: for each of the three handlers, when the acquisition is aborted by
the context (its error is returned by `Acquire`), the handler returns that
context error and leaves the world as it was: neither gate changes, the
store is untouched and no effect, on a gate or on storage, is recorded. -/
theorem handlers_cancelled (w : World) (ctx : Context) (e : CtxErr) :
    (∀ req, w.srv.getUploadImageSemaphore.Acquire ctx 1 = .err e →
      UploadImage w ctx req = .returned w (.error (.context e))) ∧
    (w.srv.getImageListSemaphore.Acquire ctx 1 = .err e →
      GetImageList w ctx = .returned w (.error (.context e))) ∧
    (∀ req, w.srv.getUploadImageSemaphore.Acquire ctx 1 = .err e →
      GetImage w ctx req = .returned w (.error (.context e))) :=
  ⟨fun _ h => guarded_err .getUploadImage w ctx _ e h,
   fun h => guarded_err .getImageList w ctx _ e h,
   fun _ h => guarded_err .getUploadImage w ctx _ e h⟩

/-- The witness of C7: an upload whose context is cancelled before the call
returns `context.Canceled` and writes nothing. -/
theorem handlers_cancelled_witness :
    UploadImage exWorld (.done .Canceled) ⟨"cat".toList, [0xFF, 0xD8]⟩ =
      .returned exWorld (.error (.context .Canceled)) :=
  (handlers_cancelled exWorld (.done .Canceled) .Canceled).1 ⟨"cat".toList, [0xFF, 0xD8]⟩
    (by decide)

/-! ## C8: independent budgets -/

/-- C8: the two budgets are independent. An upload and a read acquire at
the same gate, the upload/read gate, and a list request at the list gate;
the acquisition takes exactly one unit of that gate and leaves the other
gate as it is. `GetImageList` neither reads nor changes the upload/read
gate: with any other value of that gate it does the same and leaves that
value in place; `UploadImage` and `GetImage` likewise neither read nor
change the list gate. Hence a list request with a live context is admitted
whenever the list gate has a free unit, whatever the upload/read gate holds
(also when it is full), and an upload or a read whenever the upload/read
gate has a free unit, whatever the list gate holds. -/
theorem gates_independent :
    (∀ req, (Request.upload req).gate = .getUploadImage) ∧
    (∀ req, (Request.get req).gate = .getUploadImage) ∧
    Request.list.gate = .getImageList ∧
    (∀ (w w1 : World) (t t1 : Task), t.phase = .waiting → stepTask w t = some (w1, t1) →
      t1.phase = .holding →
      (w1.gate t.req.gate).cur = (w.gate t.req.gate).cur + 1 ∧
        ∀ g, g ≠ t.req.gate → w1.gate g = w.gate g) ∧
    (∀ w ctx x, GetImageList (w.setGate .getUploadImage x) ctx =
      (GetImageList w ctx).withGate .getUploadImage x) ∧
    (∀ w ctx req x, UploadImage (w.setGate .getImageList x) ctx req =
      (UploadImage w ctx req).withGate .getImageList x) ∧
    (∀ w ctx req x, GetImage (w.setGate .getImageList x) ctx req =
      (GetImage w ctx req).withGate .getImageList x) ∧
    (∀ w : World, w.srv.getImageListSemaphore.cur < w.srv.getImageListSemaphore.size →
      ∃ w1 r, GetImageList w .background = .returned w1 r) ∧
    (∀ (w : World) req,
      w.srv.getUploadImageSemaphore.cur < w.srv.getUploadImageSemaphore.size →
      (∃ w1 r, UploadImage w .background req = .returned w1 r)) ∧
    (∀ (w : World) req,
      w.srv.getUploadImageSemaphore.cur < w.srv.getUploadImageSemaphore.size →
      (∃ w1 r, GetImage w .background req = .returned w1 r)) :=
  ⟨fun _ => rfl, fun _ => rfl, rfl,
   fun w w1 t t1 hp h h1 => stepTask_acquire w w1 t t1 hp h h1,
   fun w ctx x => guarded_setGate .getImageList .getUploadImage (by decide) w ctx x _
      (fun w0 => GetImageListBody_setGate w0 _ x),
   fun w ctx req x => guarded_setGate .getUploadImage .getImageList (by decide) w ctx x _
      (fun w0 => UploadImageBody_setGate req w0 _ x),
   fun w ctx req x => guarded_setGate .getUploadImage .getImageList (by decide) w ctx x _
      (fun w0 => GetImageBody_setGate req w0 _ x),
   fun w h => guarded_admitted .getImageList w _ h GetImageListBody_ok,
   fun w req h => guarded_admitted .getUploadImage w _ h (UploadImageBody_ok req),
   fun w req h => guarded_admitted .getUploadImage w _ h (GetImageBody_ok req)⟩

/-- The witness of C8: with the upload/read gate full (10 of 10 in use) a
list request on the empty store is still admitted and returns. -/
theorem gates_independent_witness :
    ∃ w1 r, GetImageList (exWorld.setGate .getUploadImage ⟨10, 10⟩) .background =
      .returned w1 r :=
  gates_independent.2.2.2.2.2.2.2.1 (exWorld.setGate .getUploadImage ⟨10, 10⟩) (by decide)

/-! ## C9: the admission bound -/

/-- C9: in every interleaving of requests at a server built with upload/read
limit `n`, the number of uploads and reads that have acquired a unit and not
yet released it equals the units in use at the upload/read gate and never
exceeds `n`; a step of a request that holds no unit leaves the store
untouched and records no storage effect, so every write and read is done by
a request that holds a unit; and with `n = 1` no two requests hold a unit of
the upload/read gate together, so a second upload cannot write before the
first has released. -/
theorem admission_bound (n m : Nat) (dir ext : Str) (fs : FS) (sched : List Action) (s : Sys)
    (hrun : runSchedule (Sys.init n m dir ext fs) sched = some s) :
    s.holders .getUploadImage ≤ n ∧
      s.holders .getUploadImage = s.w.srv.getUploadImageSemaphore.cur ∧
      (∀ i t s1, s.tasks[i]? = some t → step s (.run i) = some s1 →
        t.holds t.req.gate = false →
        s1.w.fs = s.w.fs ∧ ∃ ev, s1.w.trace = s.w.trace ++ ev ∧ ∀ e ∈ ev, e.isGate = true) ∧
      (n = 1 → ∀ (i j : Nat) (ti tj : Task), i ≠ j → s.tasks[i]? = some ti → s.tasks[j]? = some tj →
        ti.holds .getUploadImage = true → tj.holds .getUploadImage = false) := by
  obtain ⟨hn, _, hg⟩ := runSchedule_inv n m sched _ s (init_inv n m dir ext fs) hrun
  have h1 := hg .getUploadImage
  have hle : s.holders .getUploadImage ≤ n := by
    rw [← h1.1, ← hn]
    exact h1.2
  refine ⟨hle, h1.1.symm, fun i t s1 ht hs hno => step_run_quiet s s1 i t ht hs hno, ?_⟩
  intro hn1 i j ti tj hij hi hj hti
  cases htj : tj.holds .getUploadImage with
  | false => rfl
  | true =>
    have h2 : 2 ≤ s.holders .getUploadImage := by
      rcases Nat.lt_or_gt_of_ne hij with h | h
      · exact countP_two _ s.tasks i j ti tj h hi hj hti htj
      · exact countP_two _ s.tasks j i tj ti h hj hi htj hti
    omega

/-- The witness of C9: limit 1, two uploads arrive, the first acquires its
unit; one request holds a unit, and the second upload cannot take a step. -/
theorem admission_bound_witness :
    exTwoUploadsState.holders .getUploadImage ≤ 1 ∧
      exTwoUploadsState.holders .getUploadImage = 1 ∧
      step exTwoUploadsState (.run 1) = none :=
  ⟨(admission_bound 1 100 "media/".toList "jpg".toList exFS exTwoUploads exTwoUploadsState
      (by decide)).1, by decide, by decide⟩

/-! ## C10: listing after an upload -/

/-- C10, amended: for every identifier whose file name (identifier, dot,
extension) holds no separator, and an image directory that can be listed,
after `UploadImage` has succeeded and returned the file name, a following
`GetImageList` that its gate admits succeeds and has an entry of that name;
unless a file of that name was there before the upload and the server may
not read it, the modification date of the entry is the time of the write
and so is not empty. -/
theorem upload_then_listed (w w1 : World) (ctx1 ctx2 : Context) (req : UploadImageRequest)
    (r : UploadImageResponse) (sem2 : Weighted) (files : List DirEntry)
    (hslash : '/' ∉ req.ImageName ++ '.' :: w.srv.imageExt)
    (hroot : os_ReadDir w.fs w.srv.imageDir = .ok files)
    (hup : UploadImage w ctx1 req = .returned w1 (.ok r))
    (hacq : w1.srv.getImageListSemaphore.Acquire ctx2 1 = .ok sem2) :
    ∃ w2 infos, GetImageList w1 ctx2 = .returned w2 (.ok { ImageInfo := infos }) ∧
      ∃ i ∈ infos, i.ImageName = r.ImageName ∧
        ((∀ d old, w.fs.resolve w.srv.imageDir = .ok d →
            w.fs.lookup (d ++ [r.ImageName]) = some old → old.readable = true) →
          i.ModificationDate = w.fs.now.Format ∧ i.ModificationDate ≠ []) := by
  obtain ⟨w2, infos, h1, i, hi, hn, hm⟩ :=
    list_after_upload w w1 ctx1 ctx2 req r sem2 files hslash hroot hup hacq
  refine ⟨w2, infos, h1, i, hi, hn, fun hr => ⟨hm hr, ?_⟩⟩
  rw [hm hr]
  exact Time_Format_ne_nil _

/-- The witness of C10: identifier `cat`, extension `jpg`, bytes FF D8 on
the empty store; the listing has an entry `cat.jpg` with the time of the
write as its modification date. -/
theorem upload_then_listed_witness :
    ∃ w2 infos, GetImageList exAfterCat .background = .returned w2 (.ok { ImageInfo := infos }) ∧
      ∃ i ∈ infos, i.ImageName = "cat.jpg".toList ∧
        ((∀ d old, exFS.resolve "media/".toList = .ok d →
            exFS.lookup (d ++ ["cat.jpg".toList]) = some old → old.readable = true) →
          i.ModificationDate = exTime.Format ∧ i.ModificationDate ≠ []) :=
  upload_then_listed exWorld exAfterCat .background .background ⟨"cat".toList, [0xFF, 0xD8]⟩
    ⟨"cat.jpg".toList⟩ ⟨100, 1⟩ [] (by decide) (by decide) (by decide) (by decide)

/-- The counterexample to C10 as stated: the image directory has a
directory `sub`; the upload under the identifier `sub/cat` succeeds and
returns `sub/cat.jpg`, and the listing that follows succeeds with the two
files directly under the root: no entry has the returned name. -/
theorem upload_into_subdirectory_not_listed :
    UploadImage exWorld2 .background ⟨"sub/cat".toList, [0xFF, 0xD8]⟩ =
        .returned exAfterSub (.ok { ImageName := "sub/cat.jpg".toList }) ∧
      (GetImageList exAfterSub .background).result? =
        some (.ok { ImageInfo :=
          [{ ImageName := "cat.jpg".toList,
             CreationDate := "2024-03-07 09:05:00".toList,
             ModificationDate := "2024-03-07 09:05:00".toList },
           { ImageName := "locked.png".toList, CreationDate := [], ModificationDate := [] }] }) ∧
      "sub/cat.jpg".toList ∉ ["cat.jpg".toList, "locked.png".toList] := by
  decide

end GrpcServer
